import Mathlib

/-!
# Verification of the tarmac sync pipeline

A shallow embedding of `src/commands/sync.rs` and `src/codegen.rs` from the
`tarmac` repository, together with theorems settling the specification claims
about config discovery, input discovery, the manifest-diffing sync decision
engine, manifest rebuilding and the codegen tree builder.

Modelling conventions:
* Filesystem paths (`std::path::PathBuf`) are lists of path segments.
* All I/O is factored into explicit oracle functions (file metadata, directory
  listings, file reads, config parses); the spec places transport, serialization
  and glob semantics out of scope, so those appear as parameters.
* Rust panics (`unwrap`, `expect`, `assert!`, out-of-bounds indexing) are
  modelled by `Option`/dedicated error values.
* The SHA-256 digest comes from the external `sha2` crate; it is modelled as a
  parameter `hashFn : List Nat → String` (byte list to hex string).
* Upload strategies (`UploadStrategy::upload`) are modelled as pure functions
  returning the new asset id; every call is also recorded in an explicit log so
  that call counts are observable.
-/

set_option autoImplicit false

namespace Tarmac

/-- A filesystem path, as its list of segments (`std::path::PathBuf`). -/
abbrev PathBuf := List String

/-- `AssetName` (src/asset_name.rs is not under src/): a canonical,
path-relative identifier for an asset. Its derivation is modelled below by
`AssetName.from_paths`; here it is a plain string. -/
abbrev AssetName := String

/-- Splits a character list at its last `.`, returning the parts before and
after it (`str::rfind('.')`). -/
def lastDotSplit : List Char → Option (List Char × List Char)
  | [] => none
  | c :: rest =>
    match lastDotSplit rest with
    | some (before, after) => some (c :: before, after)
    | none => if c = '.' then some ([], rest) else none

/-- Splits a file name into its stem and extension following
`std::path::Path::file_stem`/`extension`: the extension is the part after the
last `.`, except that a `.` at the very start of the name does not count as a
separator (a name like `.gitignore` has no extension). -/
def file_stem_ext (name : String) : String × Option String :=
  match lastDotSplit name.data with
  | none => (name, none)
  | some (before, after) =>
    if before = [] then (name, none) else (⟨before⟩, some ⟨after⟩)

/-- `Path::file_stem` on a single path segment: `none` models the `None` case
(empty file name), on which the source's `.unwrap()` would panic. -/
def file_stem (name : String) : Option String :=
  if name = "" then none else some (file_stem_ext name).1

/-- `Path::extension` on the final segment of a path. -/
def path_extension (path : PathBuf) : Option String :=
  match path.getLast? with
  | none => none
  | some name => (file_stem_ext name).2

/-- `is_image_asset` from sync.rs: recognizes `png` and `jpg` extensions. -/
def is_image_asset (path : PathBuf) : Bool :=
  match path_extension path with
  | some "png" => true
  | some "jpg" => true
  | _ => false

/-- `Path::with_extension "lua"`: replace the extension of the final segment. -/
def with_extension (path : PathBuf) (ext : String) : PathBuf :=
  match path.dropLast, path.getLast? with
  | _, none => [String.append "." ext]
  | init, some name =>
    init ++ [String.append (String.append ((file_stem_ext name).1) ".") ext]

/-- `CodegenKind` from the sync.rs generation of `src/data`:
`{ None, AssetUrl, UrlAndSlice }`. -/
inductive CodegenKind where
  | none
  | assetUrl
  | urlAndSlice
deriving DecidableEq, Repr

/-- `InputConfig` from `src/data` as used by sync.rs: a glob pattern (its
matching semantics are external, so the pattern is kept abstract as a string),
the `packable` flag and the codegen kind. Compared by structural equality to
detect config drift. -/
structure InputConfig where
  glob : String
  packable : Bool
  codegen : CodegenKind
deriving DecidableEq, Repr

/-- `Config` from `src/data` as used by sync.rs: name, owning folder, include
paths and declared inputs. -/
structure Config where
  name : String
  folder : PathBuf
  includes : List PathBuf
  inputs : List InputConfig
deriving DecidableEq, Repr

/-- `ImageSlice` from `src/data` (shape per the spec: a `min` corner and a
`size`, both pairs). -/
structure ImageSlice where
  min : Nat × Nat
  size : Nat × Nat
deriving DecidableEq, Repr

/-- `InputManifest` from `src/data`: the persisted per-asset record of the
previous run. -/
structure InputManifest where
  hash : Option String
  id : Option Nat
  slice : Option ImageSlice
  config : InputConfig
deriving DecidableEq, Repr

/-- `SyncInput` from sync.rs: a transient per-run record. `config_index` points
into the session's config list (outer) and that config's `inputs` (inner). -/
structure SyncInput where
  path : PathBuf
  config_index : Nat × Nat
  hash : Option String
  id : Option Nat
deriving DecidableEq, Repr

/-- `UploadData` from sync.rs: the payload handed to an upload strategy. -/
structure UploadData where
  name : AssetName
  contents : List Nat
  hash : String
deriving DecidableEq, Repr

/-- `ConfigError` from `src/data` (not under src/), as observed through
`is_not_found`: either the config-not-found case or some other parse/read
failure. -/
inductive ConfigError where
  | notFound
  | other
deriving DecidableEq, Repr

/-- `ConfigError::is_not_found`. -/
def ConfigError.is_not_found : ConfigError → Bool
  | .notFound => true
  | .other => false

/-- The `Error` enum of sync.rs's `error` module (the variants exercised by the
embedded code), plus `panicIndex`, which models a Rust panic from out-of-bounds
slice indexing (`self.configs[i]` / `config.inputs[j]`) — not a variant of the
source enum, but an abnormal termination all the same. -/
inductive Error where
  | config (source : ConfigError)
  | manifest
  | io (path : PathBuf)
  | noAuth
  | overlappingGlobs (path : PathBuf)
  | panicIndex
deriving DecidableEq, Repr

/-- Resolution of `self.configs[input.config_index.0].inputs[input.config_index.1]`;
`none` models the panic on an out-of-bounds index. -/
def resolveInputConfig (configs : List Config) (idx : Nat × Nat) :
    Option InputConfig :=
  match configs.get? idx.1 with
  | none => none
  | some config => config.inputs.get? idx.2

/-- Association-list lookup keyed by asset name (the observable behaviour of
`HashMap::get`). -/
def lookupName {α : Type} (name : AssetName) :
    List (AssetName × α) → Option α
  | [] => none
  | (k, v) :: rest => if k = name then some v else lookupName name rest

/-- Association-list insert with replacement (the observable behaviour of
`HashMap::insert`): replaces the value at an existing key, otherwise appends. -/
def insertName {α : Type} (name : AssetName) (v : α) :
    List (AssetName × α) → List (AssetName × α)
  | [] => [(name, v)]
  | (k, w) :: rest =>
    if k = name then (name, v) :: rest else (k, w) :: insertName name v rest

/-- `SyncSession::sync_unpackable_image` from sync.rs: reads the input's file,
hashes it, consults the original manifest, and either uploads (recording the
call in the returned log) or reuses the previous id. Returns the updated
`SyncInput` together with the list of upload calls made. -/
def sync_unpackable_image
    (hashFn : List Nat → String)
    (strategy : UploadData → Nat)
    (read : PathBuf → Option (List Nat))
    (configs : List Config)
    (original_manifest : List (AssetName × InputManifest))
    (input_name : AssetName) (input : SyncInput) :
    Except Error (SyncInput × List UploadData) :=
  match read input.path with
  | none => .error (.io input.path)
  | some contents =>
    let hash := hashFn contents
    -- input.hash = Some(hash) is set before the decision
    let input := { input with hash := some hash }
    let upload_data : UploadData :=
      { name := input_name, contents := contents, hash := hash }
    match lookupName input_name original_manifest with
    | some input_manifest =>
      if input_manifest.hash ≠ some hash then
        -- the file's contents have been edited since the last sync
        .ok ({ input with id := some (strategy upload_data) }, [upload_data])
      else
        match input_manifest.id with
        | some prev_id =>
          match resolveInputConfig configs input.config_index with
          | none => .error .panicIndex
          | some input_config =>
            if input_manifest.config ≠ input_config then
              -- only the file's config has changed
              .ok ({ input with id := some (strategy upload_data) },
                   [upload_data])
            else
              -- nothing has changed
              .ok ({ input with id := some prev_id }, [])
        | none =>
          -- hash present in the manifest but the image was never uploaded
          .ok ({ input with id := some (strategy upload_data) }, [upload_data])
    | none =>
      -- the input was added since the last sync
      .ok ({ input with id := some (strategy upload_data) }, [upload_data])

/-- One iteration of `SyncSession::sync`'s per-input work (sync.rs lines
251–296): the compatibility grouping first resolves every input's config (the
indexing panics on a dangling index); packable inputs are only warned about,
image inputs go through `sync_unpackable_image`, and anything else is warned
about and skipped. -/
def sync_one
    (hashFn : List Nat → String)
    (strategy : UploadData → Nat)
    (read : PathBuf → Option (List Nat))
    (configs : List Config)
    (original_manifest : List (AssetName × InputManifest))
    (entry : AssetName × SyncInput) :
    Except Error ((AssetName × SyncInput) × List UploadData) :=
  match resolveInputConfig configs entry.2.config_index with
  | none => .error .panicIndex
  | some input_config =>
    if input_config.packable then
      -- log::warn!("TODO: Support packing images"); the input is untouched
      .ok (entry, [])
    else if is_image_asset entry.2.path then
      match sync_unpackable_image hashFn strategy read configs
          original_manifest entry.1 entry.2 with
      | .error e => .error e
      | .ok (input', log) => .ok ((entry.1, input'), log)
    else
      -- log::warn!("Didn't know what to do with asset ...")
      .ok (entry, [])

/-- `SyncSession::sync` over the discovered input set. The source iterates the
compatibility groups of a `HashMap` in unspecified order; since each iteration
reads and writes only its own input, the run is modelled over an explicit
enumeration of the input map. The returned pair is the run outcome together
with the log of upload calls made before the run finished or aborted. -/
def sync_go
    (hashFn : List Nat → String)
    (strategy : UploadData → Nat)
    (read : PathBuf → Option (List Nat))
    (configs : List Config)
    (original_manifest : List (AssetName × InputManifest)) :
    List (AssetName × SyncInput) →
    Except Error (List (AssetName × SyncInput)) × List UploadData
  | [] => (.ok [], [])
  | entry :: rest =>
    match sync_one hashFn strategy read configs original_manifest entry with
    | .error e => (.error e, [])
    | .ok (entry', log) =>
      match sync_go hashFn strategy read configs original_manifest rest with
      | (.error e, log') => (.error e, log ++ log')
      | (.ok rest', log') => (.ok (entry' :: rest'), log ++ log')

/-- `SyncSession::write_manifest` (sync.rs lines 369–398): rebuild a fresh
manifest from the final state of every input, carrying the current
`InputConfig` and an unset `slice`. `none` models the indexing panic; the
actual file write is external. -/
def write_manifest (configs : List Config) :
    List (AssetName × SyncInput) →
    Option (List (AssetName × InputManifest))
  | [] => some []
  | entry :: rest =>
    match resolveInputConfig configs entry.2.config_index with
    | none => none
    | some input_config =>
      match write_manifest configs rest with
      | none => none
      | some mr =>
        some ((entry.1,
          { hash := entry.2.hash, id := entry.2.id, slice := none,
            config := input_config }) :: mr)

/-- Modelled from the spec: `AssetName::from_paths` (src/asset_name.rs is not
under src/) derives "the file path relative to its owning config's folder,
normalized". -/
def AssetName.from_paths (config_path : PathBuf) (path : PathBuf) : AssetName :=
  String.intercalate "/" (path.drop config_path.length)

/-- One registration step of `SyncSession::discover_inputs` (sync.rs lines
225–244): `HashMap::insert` returns the previously stored value; when one
existed, discovery fails with `OverlappingGlobs` carrying the pre-existing
entry's path. -/
def register_input (inputs : List (AssetName × SyncInput))
    (name : AssetName) (input : SyncInput) :
    Except Error (List (AssetName × SyncInput)) :=
  let already_found := lookupName name inputs
  let inputs' := insertName name input inputs
  match already_found with
  | some existing => .error (.overlappingGlobs existing.path)
  | none => .ok inputs'

/-- `SyncSession::discover_inputs` (sync.rs lines 200–249). The `WalkDir`
traversal and glob filter are external; `walk i j` stands for the ordered list
of matching paths produced for `configs[i].inputs[j]`. Every match is
registered under its derived asset name. -/
def discover_inputs_matches (configs : List Config)
    (walk : Nat → Nat → List PathBuf) : List ((Nat × Nat) × PathBuf) :=
  (configs.enum.map (fun ic =>
    (ic.2.inputs.enum.map (fun jc =>
      (walk ic.1 jc.1).map (fun p => ((ic.1, jc.1), p)))).flatten)).flatten

/-- The asset name derived for one match: `AssetName::from_paths(config_path,
matching.path())` with the owning config's folder. -/
def match_name (configs : List Config) (m : (Nat × Nat) × PathBuf) :
    AssetName :=
  AssetName.from_paths (((configs.get? m.1.1).map Config.folder).getD []) m.2

/-- Registration loop of `discover_inputs` over the flattened match list. -/
def discover_inputs_go (configs : List Config)
    (match_list : List ((Nat × Nat) × PathBuf))
    (inputs : List (AssetName × SyncInput)) :
    Except Error (List (AssetName × SyncInput)) :=
  match match_list with
  | [] => .ok inputs
  | m :: rest =>
    match register_input inputs (match_name configs m)
        { path := m.2, config_index := m.1, hash := none, id := none } with
    | .error e => .error e
    | .ok inputs' => discover_inputs_go configs rest inputs'

/-- `SyncSession::discover_inputs`, end to end. -/
def discover_inputs (configs : List Config)
    (walk : Nat → Nat → List PathBuf) :
    Except Error (List (AssetName × SyncInput)) :=
  discover_inputs_go configs (discover_inputs_matches configs walk) []

/-- The filesystem oracle used by `SyncSession::discover_configs`:
`metadata p` is `some true` for a file, `some false` for a directory and
`none` for an I/O error; `read_from_file`/`read_from_folder` are
`Config::read_from_file`/`read_from_folder` (src/data is not under src/, their
outcomes are parameters); `read_dir` lists a directory's entries. -/
structure ConfigFs where
  metadata : PathBuf → Option Bool
  read_from_file : PathBuf → Except ConfigError Config
  read_from_folder : PathBuf → Except ConfigError Config
  read_dir : PathBuf → Option (List PathBuf)

/-- The per-entry metadata pass of the not-found branch of
`discover_configs`: each child's metadata is read (an error is fatal) and only
directories are kept. -/
def dir_children (fs : ConfigFs) (children : List PathBuf) :
    Except Error (List PathBuf) :=
  match children with
  | [] => .ok []
  | c :: rest =>
    match fs.metadata c with
    | none => .error (.io c)
    | some true => dir_children fs rest
    | some false =>
      match dir_children fs rest with
      | .error e => .error e
      | .ok dirs => .ok (c :: dirs)

/-- One iteration of the `discover_configs` queue loop (sync.rs lines
137–194). Returns `none` when the queue is empty (the loop ends), otherwise
the updated queue and config list. -/
def discover_configs_step (fs : ConfigFs)
    (queue : List PathBuf) (configs : List Config) :
    Except Error (Option (List PathBuf × List Config)) :=
  match queue with
  | [] => .ok none
  | search_path :: rest =>
    match fs.metadata search_path with
    | none => .error (.io search_path)
    | some true =>
      -- a file explicitly named by a config
      match fs.read_from_file search_path with
      | .error e => .error (.config e)
      | .ok config =>
        .ok (some (rest ++ config.includes, configs ++ [config]))
    | some false =>
      match fs.read_from_folder search_path with
      | .ok config =>
        -- found a config; this branch is done
        .ok (some (rest ++ config.includes, configs ++ [config]))
      | .error e =>
        if e.is_not_found then
          -- keep searching down this branch of the filesystem
          match fs.read_dir search_path with
          | none => .error (.io search_path)
          | some children =>
            match dir_children fs children with
            | .error e' => .error e'
            | .ok dirs => .ok (some (rest ++ dirs, configs))
        else .error (.config e)

/-- The `discover_configs` loop, fuelled: the source's loop has no cycle
guard and can run forever (spec §4.1), so `none` models fuel exhaustion. -/
def discover_configs_loop (fs : ConfigFs) :
    Nat → List PathBuf → List Config →
    Option (Except Error (List Config))
  | 0, _, _ => none
  | fuel + 1, queue, configs =>
    match discover_configs_step fs queue configs with
    | .error e => some (.error e)
    | .ok none => some (.ok configs)
    | .ok (some (queue', configs')) =>
      discover_configs_loop fs fuel queue' configs'

/-! ## codegen.rs

`src/codegen.rs` belongs to a later generation of `src/data` than sync.rs: its
`SyncInput` carries its owning config inline (`input.config.base_path`,
`input.config.codegen : Option<CodegenKind>`) and a `slice`. Those shapes are
embedded here under the `Codegen` namespace. The Lua pretty-printer
(`src/lua_ast.rs`, out of scope per the spec) is kept as an AST: generated
"output text" is compared as the produced AST, of which the printed text is a
fixed deterministic function. -/

namespace Codegen

/-- `CodegenKind` as used by codegen.rs (`Option<CodegenKind>` with these two
variants). -/
inductive CodegenKind where
  | assetUrl
  | urlAndSlice
deriving DecidableEq, Repr

/-- The fields of `crate::data::InputConfig` read by codegen.rs. -/
structure InputConfig where
  base_path : PathBuf
  codegen : Option CodegenKind
deriving DecidableEq, Repr

/-- The fields of `crate::data::SyncInput` read by codegen.rs. -/
structure SyncInput where
  path : PathBuf
  config : InputConfig
  id : Option Nat
  slice : Option ImageSlice
deriving DecidableEq, Repr

/-- The fragment of `crate::lua_ast` exercised by codegen.rs: string literals,
raw expressions and tables of named entries (`TableEntries` is the entry list
of a `Table`, in order). -/
inductive Expression where
  | str (s : String)
  | raw (s : String)
  | table (entries : List (String × Expression))
deriving Repr

/-- `Statement::Return`. -/
inductive Statement where
  | ret (e : Expression)
deriving Repr

/-- `AssetUrlTemplate::to_lua`. -/
def AssetUrlTemplate.to_lua (id : Nat) : Expression :=
  .str (String.append "rbxassetid://" (toString id))

/-- `UrlAndSliceTemplate::to_lua`: a table with the image URL and, when a
slice is present, its offset and size as raw `Vector2.new` expressions. -/
def UrlAndSliceTemplate.to_lua (id : Nat) (slice : Option ImageSlice) :
    Expression :=
  let base := [("Image", Expression.str
    (String.append "rbxassetid://" (toString id)))]
  match slice with
  | none => .table base
  | some s =>
    .table (base ++
      [("ImageRectOffset", Expression.raw
         (String.append "Vector2.new("
           (String.append (toString s.min.1)
             (String.append ", " (String.append (toString s.min.2) ")"))))),
       ("ImageRectSize", Expression.raw
         (String.append "Vector2.new("
           (String.append (toString s.size.1)
             (String.append ", " (String.append (toString s.size.2) ")")))))])

mutual
/-- The `Item` tree of `codegen_grouped`, with the `BTreeMap` of children
represented by its ordered entry list (`Entries`). -/
inductive Item where
  | folder (children : Entries)
  | input (inp : SyncInput)
deriving Repr

/-- The ordered entry list of a `BTreeMap<&str, Item>`. -/
inductive Entries where
  | nil
  | cons (name : String) (item : Item) (rest : Entries)
deriving Repr
end

/-- Strict lexicographic order on character lists — the `Ord` instance of
`&str` (UTF-8 byte order coincides with code-point order). -/
def charsLt : List Char → List Char → Bool
  | [], [] => false
  | [], _ :: _ => true
  | _ :: _, [] => false
  | a :: as, b :: bs =>
    if a < b then true else if b < a then false else charsLt as bs

/-- Strict order on strings, as `BTreeMap<&str, _>` orders its keys. -/
def strLt (a b : String) : Bool := charsLt a.data b.data

/-- `BTreeMap::insert` on the ordered entry list: keeps keys strictly
ascending, replacing the value at an existing key. -/
def Entries.insert (k : String) (v : Item) : Entries → Entries
  | .nil => .cons k v .nil
  | .cons k' v' rest =>
    if strLt k k' then .cons k v (.cons k' v' rest)
    else if k = k' then .cons k v rest
    else .cons k' v' (Entries.insert k v rest)

/-- `BTreeMap::get`-style lookup on the entry list. -/
def Entries.find (k : String) : Entries → Option Item
  | .nil => none
  | .cons k' v rest => if k = k' then some v else Entries.find k rest

/-- Replacing the item stored at an existing key (the in-place mutation of a
found entry). -/
def Entries.set (k : String) (v : Item) : Entries → Entries
  | .nil => .nil
  | .cons k' v' rest =>
    if k = k' then .cons k' v rest else .cons k' v' (Entries.set k v rest)

/-- Collapsing path components (codegen.rs lines 54–63): normal segments are
pushed, `.` is dropped, `..` pops the previous segment — the `assert!` panics
(modelled by `none`) when there is nothing to pop. (`Prefix`/`RootDir`
components do not arise for the segment-list paths modelled here.) -/
def collapseSegments (segs : List String) : Option (List String) :=
  segs.foldlM (fun acc seg =>
    if seg = "." then some acc
    else if seg = ".." then
      match acc.dropLast, acc.getLast? with
      | _, none => none
      | init, some _ => some init
    else some (acc ++ [seg])) []

/-- `Path::strip_prefix`, `none` on mismatch (where the source `.expect`s). -/
def strip_prefix (base path : PathBuf) : Option PathBuf :=
  if path.take base.length = base then some (path.drop base.length) else none

/-- The tree-navigation loop of `codegen_grouped` (lines 69–96) for one input:
the final segment's stem is inserted as a leaf (replacing any existing entry);
intermediate segments create or enter folders; traversing through an existing
leaf logs an error and breaks, leaving the tree unchanged from that point. -/
def insertPath (inp : SyncInput) : Entries → List String → Option Entries
  | dir, [] => some dir
  | dir, [last] =>
    -- "We assume that the last segment of a path must be a file."
    match file_stem last with
    | none => none
    | some stem => some (dir.insert stem (.input inp))
  | dir, seg :: next :: rest =>
    match dir.find seg with
    | some (.input _) =>
      -- log::error!("A path tried to traverse through a folder as if it
      -- were a file: ..."); break
      some dir
    | some (.folder sub) =>
      match insertPath inp sub (next :: rest) with
      | none => none
      | some sub' => some (dir.set seg (.folder sub'))
    | none =>
      -- entry(name).or_insert_with(|| Item::Folder(BTreeMap::new()))
      match insertPath inp Entries.nil (next :: rest) with
      | none => none
      | some sub' => some (dir.insert seg (.folder sub'))

/-- One input's contribution to the grouping pass: relative path, segment
collapse, tree insertion. -/
def insertInput (dir : Entries) (inp : SyncInput) : Option Entries :=
  match strip_prefix inp.config.base_path inp.path with
  | none => none
  | some relative_path =>
    match collapseSegments relative_path with
    | none => none
    | some segments => insertPath inp dir segments

/-- The grouping pass of `codegen_grouped` over all inputs, in slice order. -/
def buildTree (inputs : List SyncInput) : Option Entries :=
  inputs.foldlM insertInput Entries.nil

mutual
/-- `build_item` (codegen.rs lines 99–134): a folder renders to a table of its
rendered children; a leaf renders its template only when the input has a
resolved id, else `none`. -/
def build_item : Item → Option Expression
  | .folder children => some (.table (build_entries children))
  | .input inp =>
    match inp.config.codegen with
    | some .assetUrl =>
      match inp.id with
      | some id => some (AssetUrlTemplate.to_lua id)
      | none => none
    | some .urlAndSlice =>
      match inp.id with
      | some id => some (UrlAndSliceTemplate.to_lua id inp.slice)
      | none => none
    | none => none

/-- The `filter_map` over a folder's children: children rendering to `none`
are omitted. -/
def build_entries : Entries → List (String × Expression)
  | .nil => []
  | .cons name item rest =>
    match build_item item with
    | some e => (name, e) :: build_entries rest
    | none => build_entries rest
end

/-- The entry list of a tree node, as a list of pairs. -/
def Entries.toList : Entries → List (String × Item)
  | .nil => []
  | .cons name item rest => (name, item) :: Entries.toList rest

/-- `b` is strictly below the first key of the entry list (vacuously true for
an empty list). -/
def Entries.headKeyOk (b : String) : Entries → Bool
  | .nil => true
  | .cons k _ _ => strLt b k

mutual
/-- Every folder node of the item, recursively, keeps its entries in strictly
ascending key order. -/
def Item.wellOrdered : Item → Bool
  | .folder ch => ch.wellOrdered
  | .input _ => true

/-- Strictly ascending key order, recursively through subfolders. -/
def Entries.wellOrdered : Entries → Bool
  | .nil => true
  | .cons k v rest =>
    v.wellOrdered && rest.headKeyOk k && rest.wellOrdered
end

/-- `CODEGEN_HEADER` from codegen.rs. -/
def CODEGEN_HEADER : String :=
  "-- This file was @generated by Tarmac. It is not intended for manual editing."

/-- `codegen_grouped` (codegen.rs lines 33–144): the single consolidated
output written at `output_path`, as the returned Lua statement. `none` models
the panics (`expect`/`assert!`/`unwrap`). -/
def codegen_grouped (output_path : PathBuf) (inputs : List SyncInput) :
    Option (PathBuf × Statement) :=
  match buildTree inputs with
  | none => none
  | some root_folder =>
    match build_item (.folder root_folder) with
    | none => none -- .unwrap(); a folder always renders
    | some root_item => some (output_path, .ret root_item)

/-- The per-input rendering of `codegen_individual` (codegen.rs lines
148–189): one output adjacent to the source file, only for inputs with a
codegen kind and a resolved id. -/
def individual_output (input : SyncInput) : Option (PathBuf × Statement) :=
  match input.config.codegen with
  | none => none
  | some codegen =>
    let maybe_expression :=
      match codegen with
      | .assetUrl =>
        match input.id with
        | some id => some (AssetUrlTemplate.to_lua id)
        | none => none
      | .urlAndSlice =>
        match input.id with
        | some id => some (UrlAndSliceTemplate.to_lua id input.slice)
        | none => none
    match maybe_expression with
    | none => none
    | some expression => some (with_extension input.path "lua", .ret expression)

/-- `codegen_individual`. -/
def codegen_individual (inputs : List SyncInput) :
    List (PathBuf × Statement) :=
  inputs.filterMap individual_output

/-- `perform_codegen` (codegen.rs lines 21–27): grouped mode when an output
path is configured, individual mode otherwise. The result lists the written
outputs (path and body). -/
def perform_codegen (output_path : Option PathBuf)
    (inputs : List SyncInput) : Option (List (PathBuf × Statement)) :=
  match output_path with
  | some path =>
    match codegen_grouped path inputs with
    | none => none
    | some out => some [out]
  | none => some (codegen_individual inputs)

end Codegen

/-- The text written by sync.rs's `AssetUrlTemplate` `Display` impl: the
generated-file header line followed by a `return` of the asset URL. -/
def AssetUrlTemplate.format (id : Nat) : String :=
  String.append
    "-- This file was @generated by Tarmac. It is not intended for manual editing.\n"
    (String.append "return \"rbxassetid://" (String.append (toString id) "\"\n"))

/-- `SyncSession::codegen` from sync.rs (lines 400–438): the sync command's
own codegen stage. For every input it resolves the input's config and, for
`CodegenKind::AssetUrl` with a resolved id, writes one file next to the source
file containing `AssetUrlTemplate`; `None` produces nothing and `UrlAndSlice`
only warns. `none` models the indexing panic. -/
def SyncSession.codegen (configs : List Config) :
    List (AssetName × SyncInput) → Option (List (PathBuf × String))
  | [] => some []
  | entry :: rest =>
    match resolveInputConfig configs entry.2.config_index with
    | none => none
    | some input_config =>
      match SyncSession.codegen configs rest with
      | none => none
      | some outs =>
        match input_config.codegen with
        | CodegenKind.none => some outs
        | CodegenKind.assetUrl =>
          match entry.2.id with
          | some id =>
            some ((with_extension entry.2.path "lua",
              AssetUrlTemplate.format id) :: outs)
          | none => some outs
        | CodegenKind.urlAndSlice => some outs

/-! ## Concrete fixtures

Small concrete instantiations used by witness and counterexample theorems. -/

/-- A one-config session fixture: a root config with a single non-packable
input pattern. -/
def cfgFix : Config :=
  { name := "root", folder := [],
    includes := [], inputs := [{ glob := "**/*.png", packable := false,
                                 codegen := CodegenKind.assetUrl }] }

/-- The input-config of `cfgFix`. -/
def inputCfgFix : InputConfig :=
  { glob := "**/*.png", packable := false, codegen := CodegenKind.assetUrl }

/-- A freshly discovered input at `x.png` tied to `cfgFix`. -/
def inputFix : SyncInput :=
  { path := ["x.png"], config_index := (0, 0), hash := none, id := none }

/-- A file-content oracle: every path holds the single byte 1. -/
def readFix : PathBuf → Option (List Nat) := fun _ => some [1]

/-- A hash oracle for fixtures: decimal rendering of the byte sum. -/
def hashFix : List Nat → String := fun c => toString (c.foldl (· + ·) 0)

/-- A strategy oracle for fixtures: always returns id 7. -/
def strategyFix : UploadData → Nat := fun _ => 7

/-- A previous-run manifest entry matching what `readFix`/`hashFix` produce
for `inputFix`, with id 5 and the current config snapshot. -/
def maniEntryFix : InputManifest :=
  { hash := some "1", id := some 5, slice := none, config := inputCfgFix }

/-- The terminal state of an uploading branch of the decision engine: the
input's hash set to the fresh content hash and its id to the uploaded id. -/
def SyncInput.afterUpload (input : SyncInput) (h : String) (i : Nat) : SyncInput :=
  { input with hash := some h, id := some i }

/-- The number of upload-strategy calls made on behalf of asset `n` in an
upload log. -/
def countUploads (n : AssetName) (log : List UploadData) : Nat :=
  (log.filter (fun ud => ud.name = n)).length

/-- A config used by the discovery fixture, directly owned by directory
`["root"]`, with one include of its own. -/
def cfgChildFix : Config :=
  { name := "child"
    folder := ["root"]
    includes := [["inc"]]
    inputs := [] }

/-- A filesystem fixture for config discovery: every path is a directory, and
`["root"]` directly holds `cfgChildFix`. -/
def fsFix : ConfigFs :=
  { metadata := fun _ => some false
    read_from_file := fun _ => .error .other
    read_from_folder := fun p =>
      if p = ["root"] then .ok cfgChildFix else .error .notFound
    read_dir := fun _ => some [] }

/-- A grouped-codegen input fixture at `a/x.png`, uploaded as id 1. -/
def cgInputFix : Codegen.SyncInput :=
  { path := ["a", "x.png"]
    config := { base_path := [], codegen := some .assetUrl }
    id := some 1
    slice := none }

/-- Fixture helper: a grouped-codegen input with empty base path, asset-URL
codegen and the given id. -/
def mkCgInput (path : PathBuf) (id : Option Nat) : Codegen.SyncInput :=
  { path := path
    config := { base_path := [], codegen := some .assetUrl }
    id := id
    slice := none }

/-- A second and third fresh input fixture for permutation runs. -/
def inputFixA : SyncInput :=
  { path := ["x1.png"], config_index := (0, 0), hash := none, id := none }

/-- See `inputFixA`. -/
def inputFixB : SyncInput :=
  { path := ["x2.png"], config_index := (0, 0), hash := none, id := none }

/-! ## Theorems -/

/-- Claim C1: For every input recognized as an unpackable image, the sync
decision follows the five-row decision table of §4.3: an upload occurs when
there is no previous manifest entry, or the current content hash differs from
the previous one, or the previous entry has no id, or the previous entry's
captured `InputConfig` differs structurally from the current one; only when a
previous entry exists with matching hash, a present id and a structurally
equal config is the previous id reused with no upload call. Every uploading
branch sets the input's hash to the freshly computed content hash and its id
to the identifier returned by the strategy; the reuse branch leaves both as
the previous values. -/
theorem sync_decision_table
    (hashFn : List Nat → String) (strategy : UploadData → Nat)
    (read : PathBuf → Option (List Nat)) (configs : List Config)
    (omani : List (AssetName × InputManifest))
    (name : AssetName) (input : SyncInput)
    (contents : List Nat) (hread : read input.path = some contents) :
    (lookupName name omani = none →
      sync_unpackable_image hashFn strategy read configs omani name input =
        .ok (input.afterUpload (hashFn contents)
               (strategy ⟨name, contents, hashFn contents⟩),
             [⟨name, contents, hashFn contents⟩])) ∧
    (∀ m, lookupName name omani = some m → m.hash ≠ some (hashFn contents) →
      sync_unpackable_image hashFn strategy read configs omani name input =
        .ok (input.afterUpload (hashFn contents)
               (strategy ⟨name, contents, hashFn contents⟩),
             [⟨name, contents, hashFn contents⟩])) ∧
    (∀ m, lookupName name omani = some m → m.hash = some (hashFn contents) →
      m.id = none →
      sync_unpackable_image hashFn strategy read configs omani name input =
        .ok (input.afterUpload (hashFn contents)
               (strategy ⟨name, contents, hashFn contents⟩),
             [⟨name, contents, hashFn contents⟩])) ∧
    (∀ m pid cfg, lookupName name omani = some m →
      m.hash = some (hashFn contents) → m.id = some pid →
      resolveInputConfig configs input.config_index = some cfg →
      m.config ≠ cfg →
      sync_unpackable_image hashFn strategy read configs omani name input =
        .ok (input.afterUpload (hashFn contents)
               (strategy ⟨name, contents, hashFn contents⟩),
             [⟨name, contents, hashFn contents⟩])) ∧
    (∀ m pid cfg, lookupName name omani = some m →
      m.hash = some (hashFn contents) → m.id = some pid →
      resolveInputConfig configs input.config_index = some cfg →
      m.config = cfg →
      sync_unpackable_image hashFn strategy read configs omani name input =
        .ok ({ input with hash := m.hash, id := m.id }, [])) := by
  refine ⟨?_, ?_, ?_, ?_, ?_⟩
  · intro hprev
    simp [sync_unpackable_image, SyncInput.afterUpload, hread, hprev]
  · intro m hprev hhash
    simp [sync_unpackable_image, SyncInput.afterUpload, hread, hprev, hhash]
  · intro m hprev hhash hid
    simp [sync_unpackable_image, SyncInput.afterUpload, hread, hprev, hhash, hid]
  · intro m pid cfg hprev hhash hid hres hcfg
    simp [sync_unpackable_image, SyncInput.afterUpload, hread, hprev, hhash, hid, hres, hcfg]
  · intro m pid cfg hprev hhash hid hres hcfg
    simp [sync_unpackable_image, SyncInput.afterUpload, hread, hprev, hhash, hid, hres, hcfg]

/-- Witness for `sync_decision_table`: on the concrete fixture whose manifest
entry matches hash, id and config, the reuse row applies and produces the
previous id with no upload; and the upload row applies once the stored hash is
changed. -/
theorem sync_decision_table_witness :
    sync_unpackable_image hashFix strategyFix readFix [cfgFix]
        [("x.png", maniEntryFix)] "x.png" inputFix =
      .ok ({ inputFix with hash := some "1", id := some 5 }, []) := by
  have h := (sync_decision_table hashFix strategyFix readFix [cfgFix]
      [("x.png", maniEntryFix)] "x.png" inputFix [1] rfl).2.2.2.2
      maniEntryFix 5 inputCfgFix rfl rfl rfl rfl rfl
  simpa [maniEntryFix] using h

/-- Full case characterization of a successful decision: the file's bytes were
read, the hash is the fresh content hash, the id was resolved, and the upload
log is empty or the single call for this input. -/
theorem sync_unpackable_image_cases
    (hashFn : List Nat → String) (strategy : UploadData → Nat)
    (read : PathBuf → Option (List Nat)) (configs : List Config)
    (omani : List (AssetName × InputManifest))
    (name : AssetName) (input : SyncInput) (i' : SyncInput)
    (log : List UploadData)
    (h : sync_unpackable_image hashFn strategy read configs omani name input =
      .ok (i', log)) :
    ∃ contents idv, read input.path = some contents ∧
      i' = { input with hash := some (hashFn contents), id := some idv } ∧
      (log = [] ∨ log = [⟨name, contents, hashFn contents⟩]) := by
  cases hread : read input.path with
  | none => simp [sync_unpackable_image, hread] at h
  | some contents =>
    refine ⟨contents, ?_⟩
    cases hprev : lookupName name omani with
    | none =>
      simp [sync_unpackable_image, hread, hprev] at h
      exact ⟨_, rfl, h.1.symm, by simp [h.2]⟩
    | some m =>
      by_cases hh : m.hash = some (hashFn contents)
      · cases hid : m.id with
        | none =>
          simp [sync_unpackable_image, hread, hprev, hh, hid] at h
          exact ⟨_, rfl, h.1.symm, by simp [h.2]⟩
        | some pid =>
          cases hres : resolveInputConfig configs input.config_index with
          | none => simp [sync_unpackable_image, hread, hprev, hh, hid, hres] at h
          | some cfg =>
            by_cases hcfg : m.config = cfg
            · simp [sync_unpackable_image, hread, hprev, hh, hid, hres, hcfg]
                at h
              exact ⟨pid, rfl, h.1.symm, Or.inl h.2⟩
            · simp [sync_unpackable_image, hread, hprev, hh, hid, hres, hcfg]
                at h
              exact ⟨_, rfl, h.1.symm, by simp [h.2]⟩
      · simp [sync_unpackable_image, hread, hprev, hh] at h
        exact ⟨_, rfl, h.1.symm, by simp [h.2]⟩

/-- A successful `sync_one` keeps the entry's name, logs at most one upload,
and tags every logged upload with the entry's name. -/
theorem sync_one_log
    (hashFn : List Nat → String) (strategy : UploadData → Nat)
    (read : PathBuf → Option (List Nat)) (configs : List Config)
    (omani : List (AssetName × InputManifest))
    (entry entry' : AssetName × SyncInput) (log : List UploadData)
    (h : sync_one hashFn strategy read configs omani entry =
      .ok (entry', log)) :
    entry'.1 = entry.1 ∧ log.length ≤ 1 ∧ ∀ ud ∈ log, ud.name = entry.1 := by
  cases hres : resolveInputConfig configs entry.2.config_index with
  | none => simp [sync_one, hres] at h
  | some input_config =>
    cases hp : input_config.packable with
    | true =>
      simp [sync_one, hres, hp] at h
      obtain ⟨h1, h2⟩ := h
      simp [← h1, h2]
    | false =>
      cases him : is_image_asset entry.2.path with
      | false =>
        simp [sync_one, hres, hp, him] at h
        obtain ⟨h1, h2⟩ := h
        simp [← h1, h2]
      | true =>
        cases hsync : sync_unpackable_image hashFn strategy read configs
            omani entry.1 entry.2 with
        | error e => simp [sync_one, hres, hp, him, hsync] at h
        | ok res =>
          simp [sync_one, hres, hp, him, hsync] at h
          obtain ⟨contents, idv, _, _, hlog⟩ :=
            sync_unpackable_image_cases hashFn strategy read configs omani
              entry.1 entry.2 res.1 res.2 (by rw [hsync])
          refine ⟨by simp [← h.1], ?_, ?_⟩
          · rcases hlog with hl | hl <;> simp [← h.2, hl]
          · rcases hlog with hl | hl <;> simp [← h.2, hl]

/-- The upload log of a run decomposes entry by entry: a successful first
entry contributes its own log in front of the rest of the run's log. -/
theorem sync_go_log_cons
    (hashFn : List Nat → String) (strategy : UploadData → Nat)
    (read : PathBuf → Option (List Nat)) (configs : List Config)
    (omani : List (AssetName × InputManifest))
    (entry : AssetName × SyncInput) (rest : List (AssetName × SyncInput)) :
    (∀ e, sync_one hashFn strategy read configs omani entry = .error e →
      (sync_go hashFn strategy read configs omani (entry :: rest)).2 = []) ∧
    (∀ entry' log,
      sync_one hashFn strategy read configs omani entry = .ok (entry', log) →
      (sync_go hashFn strategy read configs omani (entry :: rest)).2 =
        log ++ (sync_go hashFn strategy read configs omani rest).2) := by
  constructor
  · intro e he
    simp [sync_go, he]
  · intro entry' log hok
    simp only [sync_go, hok]
    rcases hgo : sync_go hashFn strategy read configs omani rest with ⟨res, log'⟩
    cases res <;> simp

/-- `countUploads` distributes over log concatenation. -/
theorem countUploads_append (n : AssetName) (l1 l2 : List UploadData) :
    countUploads n (l1 ++ l2) = countUploads n l1 + countUploads n l2 := by
  simp [countUploads, List.filter_append]

/-- Claim C2: For every discovered input and every run, the upload strategy is
invoked at most once for that input: over any enumeration of the input map
with distinct names, the run's upload log contains at most one call tagged
with each name (and none for names outside the map). -/
theorem sync_upload_at_most_once
    (hashFn : List Nat → String) (strategy : UploadData → Nat)
    (read : PathBuf → Option (List Nat)) (configs : List Config)
    (omani : List (AssetName × InputManifest))
    (inputs : List (AssetName × SyncInput))
    (hnd : (inputs.map Prod.fst).Nodup) (n : AssetName) :
    countUploads n
      (sync_go hashFn strategy read configs omani inputs).2 ≤ 1 ∧
    (n ∉ inputs.map Prod.fst →
      countUploads n
        (sync_go hashFn strategy read configs omani inputs).2 = 0) := by
  induction inputs with
  | nil => simp [sync_go, countUploads]
  | cons entry rest ih =>
    rw [List.map_cons] at hnd
    have hnotin : entry.1 ∉ rest.map Prod.fst := (List.nodup_cons.mp hnd).1
    have hnd' : (rest.map Prod.fst).Nodup := (List.nodup_cons.mp hnd).2
    rcases hone : sync_one hashFn strategy read configs omani entry with e
      | ⟨entry', log⟩
    · have hz := (sync_go_log_cons hashFn strategy read configs omani
        entry rest).1 e hone
      simp [hz, countUploads]
    · have happ := (sync_go_log_cons hashFn strategy read configs omani
        entry rest).2 entry' log hone
      have hlog := sync_one_log hashFn strategy read configs omani
        entry entry' log hone
      have hcount_log : countUploads n log ≤ 1 := by
        calc countUploads n log ≤ log.length := by
              simpa [countUploads] using
                List.length_filter_le (fun ud => decide (ud.name = n)) log
          _ ≤ 1 := hlog.2.1
      have hcount_zero : n ≠ entry.1 → countUploads n log = 0 := by
        intro hne
        simp only [countUploads, List.length_eq_zero,
          List.filter_eq_nil_iff]
        intro ud hud
        have := hlog.2.2 ud hud
        simp [this, hne.symm]
      rw [happ, countUploads_append]
      constructor
      · rcases eq_or_ne n entry.1 with heq | hne
        · have hrest0 : countUploads n
              (sync_go hashFn strategy read configs omani rest).2 = 0 :=
            (ih hnd').2 (heq ▸ hnotin)
          omega
        · have hrest1 := (ih hnd').1
          have h0 := hcount_zero hne
          omega
      · intro hnin
        have hne : n ≠ entry.1 := by
          intro heq
          exact hnin (by simp [heq])
        have hrest0 : countUploads n
            (sync_go hashFn strategy read configs omani rest).2 = 0 :=
          (ih hnd').2 (fun hmem => hnin (by simp [hmem]))
        have h0 := hcount_zero hne
        omega

/-- Witness for `sync_upload_at_most_once`: the fixture run over a single
fresh input uploads exactly once, within the proved bound. -/
theorem sync_upload_at_most_once_witness :
    countUploads "x.png"
      (sync_go hashFix strategyFix readFix [cfgFix] []
        [("x.png", inputFix)]).2 ≤ 1 :=
  (sync_upload_at_most_once hashFix strategyFix readFix [cfgFix] []
    [("x.png", inputFix)] (by simp) "x.png").1

/-- When the original manifest already holds the fresh content hash, a
present id and the currently resolved config, the decision engine reuses the
previous id and performs no upload. -/
theorem sync_unpackable_image_reuse
    (hashFn : List Nat → String) (strategy : UploadData → Nat)
    (read : PathBuf → Option (List Nat)) (configs : List Config)
    (M : List (AssetName × InputManifest))
    (name : AssetName) (input : SyncInput)
    (contents : List Nat) (cfg : InputConfig) (idv : Nat)
    (m : InputManifest)
    (hread : read input.path = some contents)
    (hres : resolveInputConfig configs input.config_index = some cfg)
    (hM : lookupName name M = some m)
    (h1 : m.hash = some (hashFn contents))
    (h2 : m.id = some idv)
    (h3 : m.config = cfg) :
    sync_unpackable_image hashFn strategy read configs M name input =
      .ok ({ input with hash := some (hashFn contents), id := some idv },
           []) := by
  simp [sync_unpackable_image, hread, hres, hM, h1, h2, h3]

/-- A successful `sync_one` preserves the entry's name, path and config
index. -/
theorem sync_one_preserves
    (hashFn : List Nat → String) (strategy : UploadData → Nat)
    (read : PathBuf → Option (List Nat)) (configs : List Config)
    (omani : List (AssetName × InputManifest))
    (entry entry' : AssetName × SyncInput) (log : List UploadData)
    (h : sync_one hashFn strategy read configs omani entry =
      .ok (entry', log)) :
    entry'.1 = entry.1 ∧ entry'.2.path = entry.2.path ∧
      entry'.2.config_index = entry.2.config_index := by
  cases hres : resolveInputConfig configs entry.2.config_index with
  | none => simp [sync_one, hres] at h
  | some input_config =>
    cases hp : input_config.packable with
    | true =>
      simp [sync_one, hres, hp] at h
      simp [← h.1]
    | false =>
      cases him : is_image_asset entry.2.path with
      | false =>
        simp [sync_one, hres, hp, him] at h
        simp [← h.1]
      | true =>
        cases hsync : sync_unpackable_image hashFn strategy read configs
            omani entry.1 entry.2 with
        | error e => simp [sync_one, hres, hp, him, hsync] at h
        | ok res =>
          simp [sync_one, hres, hp, him, hsync] at h
          obtain ⟨contents, idv, _, hshape, _⟩ :=
            sync_unpackable_image_cases hashFn strategy read configs omani
              entry.1 entry.2 res.1 res.2 (by rw [hsync])
          simp [← h.1, hshape]

/-- Inversion of a successful run step: the head entry succeeded and the rest
of the run succeeded, with the results and logs concatenated. -/
theorem sync_go_cons_ok
    (hashFn : List Nat → String) (strategy : UploadData → Nat)
    (read : PathBuf → Option (List Nat)) (configs : List Config)
    (omani : List (AssetName × InputManifest))
    (entry : AssetName × SyncInput) (rest L₁ : List (AssetName × SyncInput))
    (log₁ : List UploadData)
    (h : sync_go hashFn strategy read configs omani (entry :: rest) =
      (.ok L₁, log₁)) :
    ∃ entry' lg rest' lgr,
      sync_one hashFn strategy read configs omani entry = .ok (entry', lg) ∧
      sync_go hashFn strategy read configs omani rest = (.ok rest', lgr) ∧
      L₁ = entry' :: rest' ∧ log₁ = lg ++ lgr := by
  rcases hone : sync_one hashFn strategy read configs omani entry with e
    | ⟨entry', lg⟩
  · simp [sync_go, hone] at h
  · rcases hgo : sync_go hashFn strategy read configs omani rest with
      ⟨res, lgr⟩
    cases res with
    | error e => simp [sync_go, hone, hgo] at h
    | ok rest' =>
      simp [sync_go, hone, hgo] at h
      exact ⟨entry', lg, rest', lgr, rfl, rfl, h.1.symm, h.2.symm⟩

/-- Forward composition of a run step from its parts. -/
theorem sync_go_cons_mk
    (hashFn : List Nat → String) (strategy : UploadData → Nat)
    (read : PathBuf → Option (List Nat)) (configs : List Config)
    (omani : List (AssetName × InputManifest))
    (entry entry' : AssetName × SyncInput)
    (rest rest' : List (AssetName × SyncInput))
    (lg lgr : List UploadData)
    (h1 : sync_one hashFn strategy read configs omani entry = .ok (entry', lg))
    (h2 : sync_go hashFn strategy read configs omani rest = (.ok rest', lgr)) :
    sync_go hashFn strategy read configs omani (entry :: rest) =
      (.ok (entry' :: rest'), lg ++ lgr) := by
  simp [sync_go, h1, h2]

/-- Decomposition of `write_manifest` over a cons. -/
theorem write_manifest_cons
    (configs : List Config) (entry : AssetName × SyncInput)
    (rest : List (AssetName × SyncInput))
    (m : List (AssetName × InputManifest))
    (h : write_manifest configs (entry :: rest) = some m) :
    ∃ cfg mr, resolveInputConfig configs entry.2.config_index = some cfg ∧
      write_manifest configs rest = some mr ∧
      m = (entry.1,
        { hash := entry.2.hash, id := entry.2.id, slice := none,
          config := cfg }) :: mr := by
  cases hres : resolveInputConfig configs entry.2.config_index with
  | none => simp [write_manifest, hres] at h
  | some cfg =>
    cases hrest : write_manifest configs rest with
    | none => simp [write_manifest, hres, hrest] at h
    | some mr =>
      simp [write_manifest, hres, hrest] at h
      exact ⟨cfg, mr, rfl, rfl, h.symm⟩

/-- A second `sync_one` over an already-decided entry: when the manifest used
by the second run stores the first run's final hash and id and the current
config for this entry, the second run reproduces the entry with no uploads. -/
theorem sync_one_second
    (hashFn : List Nat → String) (s1 s2 : UploadData → Nat)
    (read : PathBuf → Option (List Nat)) (configs : List Config)
    (omani M : List (AssetName × InputManifest))
    (entry entry' : AssetName × SyncInput) (log : List UploadData)
    (h1 : sync_one hashFn s1 read configs omani entry = .ok (entry', log))
    (hM : ∀ cfg, resolveInputConfig configs entry.2.config_index = some cfg →
      lookupName entry.1 M = some
        { hash := entry'.2.hash, id := entry'.2.id, slice := none,
          config := cfg }) :
    sync_one hashFn s2 read configs M entry = .ok (entry', []) := by
  cases hres : resolveInputConfig configs entry.2.config_index with
  | none => simp [sync_one, hres] at h1
  | some input_config =>
    cases hp : input_config.packable with
    | true =>
      simp [sync_one, hres, hp] at h1 ⊢
      exact h1.1
    | false =>
      cases him : is_image_asset entry.2.path with
      | false =>
        simp [sync_one, hres, hp, him] at h1 ⊢
        exact h1.1
      | true =>
        cases hsync : sync_unpackable_image hashFn s1 read configs
            omani entry.1 entry.2 with
        | error e => simp [sync_one, hres, hp, him, hsync] at h1
        | ok res =>
          simp [sync_one, hres, hp, him, hsync] at h1
          obtain ⟨contents, idv, hread, hshape, _⟩ :=
            sync_unpackable_image_cases hashFn s1 read configs omani
              entry.1 entry.2 res.1 res.2 (by rw [hsync])
          have hlook := hM input_config hres
          have hhash : entry'.2.hash = some (hashFn contents) := by
            rw [← h1.1, hshape]
          have hid : entry'.2.id = some idv := by
            rw [← h1.1, hshape]
          have hre := sync_unpackable_image_reuse hashFn s2 read configs M
            entry.1 entry.2 contents input_config idv
            { hash := entry'.2.hash, id := entry'.2.id, slice := none,
              config := input_config }
            hread hres hlook (by simpa using hhash) (by simpa using hid) rfl
          simp [sync_one, hres, hp, him, hre, ← h1.2, ← h1.1, hshape]

/-- A second run over the same discovered inputs against a manifest that
agrees with the one rebuilt from the first run's results succeeds with the
same final inputs and performs zero uploads. -/
theorem sync_go_second
    (hashFn : List Nat → String) (s1 s2 : UploadData → Nat)
    (read : PathBuf → Option (List Nat)) (configs : List Config)
    (omani M : List (AssetName × InputManifest))
    (L L₁ : List (AssetName × SyncInput)) (log₁ : List UploadData)
    (m₁ : List (AssetName × InputManifest))
    (hnd : (L.map Prod.fst).Nodup)
    (h1 : sync_go hashFn s1 read configs omani L = (.ok L₁, log₁))
    (hm : write_manifest configs L₁ = some m₁)
    (hagree : ∀ k, k ∈ L.map Prod.fst →
      lookupName k M = lookupName k m₁) :
    sync_go hashFn s2 read configs M L = (.ok L₁, []) := by
  induction L generalizing L₁ log₁ m₁ M with
  | nil =>
    simp [sync_go] at h1 ⊢
    exact h1.1
  | cons entry rest ih =>
    obtain ⟨entry', lg, rest', lgr, hone, hrest, hL₁, _⟩ :=
      sync_go_cons_ok hashFn s1 read configs omani entry rest L₁ log₁ h1
    subst hL₁
    obtain ⟨cfg, mr, hres', hmr, hm₁⟩ :=
      write_manifest_cons configs entry' rest' m₁ hm
    obtain ⟨hname, _, hci⟩ := sync_one_preserves hashFn s1 read configs
      omani entry entry' lg hone
    rw [List.map_cons] at hnd
    have hnotin : entry.1 ∉ rest.map Prod.fst := (List.nodup_cons.mp hnd).1
    have hnd' : (rest.map Prod.fst).Nodup := (List.nodup_cons.mp hnd).2
    have hone2 : sync_one hashFn s2 read configs M entry =
        .ok (entry', []) := by
      refine sync_one_second hashFn s1 s2 read configs omani M entry entry'
        lg hone ?_
      intro cfg' hres2
      have hcfg : cfg' = cfg := by
        rw [hci] at hres'
        rw [hres2] at hres'
        exact Option.some_injective _ hres'

      subst hcfg
      rw [hagree entry.1 (by simp), hm₁]
      simp [lookupName, hname]
    have hrest2 : sync_go hashFn s2 read configs M rest =
        (.ok rest', []) := by
      refine ih M rest' lgr mr hnd' hrest hmr ?_
      intro k hk
      have hkne : k ≠ entry.1 := fun he => hnotin (he ▸ hk)
      rw [hagree k (by simp [hk]), hm₁]
      simp [lookupName, hname, hkne.symm]
    simpa using sync_go_cons_mk hashFn s2 read configs M entry entry'
      rest rest' [] [] hone2 hrest2

/-- Claim C3: Running sync twice in succession with identical filesystem state
(the same read oracle and configs) performs zero upload-strategy calls on the
second run, and the manifest rebuilt by the second run is identical to the
one written by the first run (the second run finishes in the same final input
states, so it rebuilds the very same manifest). -/
theorem sync_idempotent
    (hashFn : List Nat → String) (s1 s2 : UploadData → Nat)
    (read : PathBuf → Option (List Nat)) (configs : List Config)
    (omani : List (AssetName × InputManifest))
    (L L₁ : List (AssetName × SyncInput)) (log₁ : List UploadData)
    (m₁ : List (AssetName × InputManifest))
    (hnd : (L.map Prod.fst).Nodup)
    (h1 : sync_go hashFn s1 read configs omani L = (.ok L₁, log₁))
    (hm : write_manifest configs L₁ = some m₁) :
    sync_go hashFn s2 read configs m₁ L = (.ok L₁, []) ∧
      write_manifest configs L₁ = some m₁ :=
  ⟨sync_go_second hashFn s1 s2 read configs omani m₁ L L₁ log₁ m₁ hnd h1 hm
      (fun _ _ => rfl),
   hm⟩

/-- Witness for `sync_idempotent`: a concrete first run over one fresh input
uploads it (id 7), and the second run against the rebuilt manifest reuses
id 7 with zero uploads. -/
theorem sync_idempotent_witness :
    sync_go hashFix (fun _ => 9) readFix [cfgFix]
        [("x.png", { hash := some "1", id := some 7, slice := none,
                     config := inputCfgFix })]
        [("x.png", inputFix)] =
      (.ok [("x.png", { inputFix with hash := some "1", id := some 7 })],
       []) :=
  (sync_idempotent hashFix strategyFix (fun _ => 9) readFix [cfgFix] []
    [("x.png", inputFix)]
    [("x.png", { inputFix with hash := some "1", id := some 7 })]
    [⟨"x.png", [1], "1"⟩]
    [("x.png", { hash := some "1", id := some 7, slice := none,
                 config := inputCfgFix })]
    (by simp) rfl rfl).1

/-- Looking a key up after an insert-with-replacement: the inserted key wins,
other keys are unaffected. -/
theorem lookup_insertName {α : Type} (n k : AssetName) (v : α)
    (l : List (AssetName × α)) :
    lookupName n (insertName k v l) =
      if k = n then some v else lookupName n l := by
  induction l with
  | nil => simp [insertName, lookupName]
  | cons e rest ih =>
    rcases e with ⟨k', v'⟩
    by_cases hk : k' = k
    · subst hk
      by_cases hn : k' = n <;> simp [insertName, lookupName, hn]
    · by_cases hn : k' = n
      · subst hn
        have : ¬ k = k' := fun he => hk he.symm
        simp [insertName, lookupName, hk, this]
      · simp [insertName, lookupName, hk, hn, ih]

/-- A successful registration loop implies every processed match carried a
name not yet registered and all derived names are pairwise distinct. -/
theorem discover_inputs_go_nodup (configs : List Config)
    (match_list : List ((Nat × Nat) × PathBuf))
    (inputs : List (AssetName × SyncInput))
    (out : List (AssetName × SyncInput))
    (h : discover_inputs_go configs match_list inputs = .ok out) :
    (match_list.map (match_name configs)).Nodup ∧
      ∀ m ∈ match_list, lookupName (match_name configs m) inputs = none := by
  induction match_list generalizing inputs with
  | nil => simp
  | cons m rest ih =>
    cases hlook : lookupName (match_name configs m) inputs with
    | some existing =>
      simp [discover_inputs_go, register_input, hlook] at h
    | none =>
      rw [discover_inputs_go] at h
      simp only [register_input, hlook] at h
      obtain ⟨hnd, hfresh⟩ := ih _ h
      have hnotin : match_name configs m ∉ rest.map (match_name configs) := by
        intro hmem
        obtain ⟨m', hm', hname⟩ := List.mem_map.mp hmem
        have := hfresh m' hm'
        rw [← hname, lookup_insertName] at this
        simp at this
      refine ⟨by simp [hnd, hnotin], ?_⟩
      intro m' hm'
      rcases List.mem_cons.mp hm' with he | hr
      · subst he; exact hlook
      · have := hfresh m' hr
        rw [lookup_insertName] at this
        by_cases hk : match_name configs m = match_name configs m'
        · simp [hk] at this
        · simpa [hk] using this

/-- Claim C5: Registering an `AssetName` that already exists in the input set
fails with the fatal `OverlappingGlobs` error carrying the path of the
pre-existing entry, and a discovery run that succeeds never had two matches
deriving the same name — discovery never silently keeps one of two
conflicting inputs. -/
theorem discover_overlap_fatal :
    (∀ (inputs : List (AssetName × SyncInput)) (name : AssetName)
       (inp existing : SyncInput),
      lookupName name inputs = some existing →
      register_input inputs name inp =
        .error (.overlappingGlobs existing.path)) ∧
    (∀ (configs : List Config) (walk : Nat → Nat → List PathBuf)
       (out : List (AssetName × SyncInput)),
      discover_inputs configs walk = .ok out →
      ((discover_inputs_matches configs walk).map
        (match_name configs)).Nodup) := by
  constructor
  · intro inputs name inp existing hlook
    simp [register_input, hlook]
  · intro configs walk out h
    exact (discover_inputs_go_nodup configs _ [] out h).1

/-- Witness for `discover_overlap_fatal`: registering `x.png` a second time
fails with `OverlappingGlobs` carrying the first entry's path. -/
theorem discover_overlap_fatal_witness :
    register_input [("x.png", inputFix)] "x.png"
        { path := ["other", "x.png"], config_index := (0, 0), hash := none,
          id := none } =
      .error (.overlappingGlobs ["x.png"]) :=
  discover_overlap_fatal.1 [("x.png", inputFix)] "x.png"
    { path := ["other", "x.png"], config_index := (0, 0), hash := none,
      id := none }
    inputFix rfl

/-- When every child's metadata is readable, the not-found branch keeps
exactly the directories among the immediate children (plain files are
ignored). -/
theorem dir_children_ok (fs : ConfigFs) (children : List PathBuf)
    (h : ∀ c ∈ children, fs.metadata c ≠ none) :
    dir_children fs children =
      .ok (children.filter (fun c => fs.metadata c = some false)) := by
  induction children with
  | nil => simp [dir_children]
  | cons c rest ih =>
    have hc := h c (by simp)
    have hrest : ∀ c' ∈ rest, fs.metadata c' ≠ none :=
      fun c' hc' => h c' (by simp [hc'])
    cases hm : fs.metadata c with
    | none => exact absurd hm hc
    | some b =>
      cases b <;> simp [dir_children, hm, ih hrest]

/-- Claim C6: When a queued search path is a directory: a config found directly
there is terminal for the branch — its includes are enqueued and the config
appended, and no subdirectory is enqueued; when no config is found, only the
immediate subdirectories are enqueued (plain files ignored); any I/O or parse
error other than config-not-found aborts discovery with a fatal error. -/
theorem discover_configs_dir_cases (fs : ConfigFs) (p : PathBuf)
    (rest : List PathBuf) (configs : List Config)
    (hdir : fs.metadata p = some false) :
    (∀ c, fs.read_from_folder p = .ok c →
      discover_configs_step fs (p :: rest) configs =
        .ok (some (rest ++ c.includes, configs ++ [c]))) ∧
    (∀ e, fs.read_from_folder p = .error e → e.is_not_found = false →
      discover_configs_step fs (p :: rest) configs = .error (.config e)) ∧
    (fs.read_from_folder p = .error .notFound →
      (fs.read_dir p = none →
        discover_configs_step fs (p :: rest) configs = .error (.io p)) ∧
      (∀ children, fs.read_dir p = some children →
        (∀ c ∈ children, fs.metadata c ≠ none) →
        discover_configs_step fs (p :: rest) configs =
          .ok (some (rest ++ children.filter
            (fun c => fs.metadata c = some false), configs)))) := by
  refine ⟨?_, ?_, ?_⟩
  · intro c hok
    simp [discover_configs_step, hdir, hok]
  · intro e herr hnf
    simp [discover_configs_step, hdir, herr, hnf]
  · intro herr
    constructor
    · intro hrd
      simp [discover_configs_step, hdir, herr, ConfigError.is_not_found, hrd]
    · intro children hrd hmeta
      simp [discover_configs_step, hdir, herr, ConfigError.is_not_found, hrd,
        dir_children_ok fs children hmeta]

/-- Witness for `discover_configs_dir_cases`: searching the fixture directory
`root` finds `cfgChildFix`, enqueues its include `inc` and appends it without
enqueuing any subdirectory. -/
theorem discover_configs_dir_cases_witness :
    discover_configs_step fsFix [["root"]] [] =
      .ok (some ([["inc"]], [cfgChildFix])) :=
  (discover_configs_dir_cases fsFix ["root"] [] [] rfl).1 cfgChildFix rfl

/-- In the per-input codegen of sync.rs, every written output belongs to one
of the session's inputs: it sits at the input's own path with the generated
extension and contains that input's rendered asset-URL template. -/
theorem SyncSession_codegen_per_input (configs : List Config)
    (inputs : List (AssetName × SyncInput)) (outs : List (PathBuf × String))
    (h : SyncSession.codegen configs inputs = some outs) :
    ∀ o ∈ outs, ∃ entry ∈ inputs,
      o.1 = with_extension entry.2.path "lua" ∧
      ∃ id, entry.2.id = some id ∧ o.2 = AssetUrlTemplate.format id := by
  induction inputs generalizing outs with
  | nil =>
    simp [SyncSession.codegen] at h
    subst h
    simp
  | cons entry rest ih =>
    cases hres : resolveInputConfig configs entry.2.config_index with
    | none => simp [SyncSession.codegen, hres] at h
    | some input_config =>
      cases hrest : SyncSession.codegen configs rest with
      | none => simp [SyncSession.codegen, hres, hrest] at h
      | some routs =>
        have htail : ∀ o ∈ routs, ∃ entry ∈ rest,
            o.1 = with_extension entry.2.path "lua" ∧
            ∃ id, entry.2.id = some id ∧
              o.2 = AssetUrlTemplate.format id := ih routs hrest
        cases hkind : input_config.codegen with
        | none =>
          simp [SyncSession.codegen, hres, hrest, hkind] at h
          subst h
          intro o ho
          obtain ⟨e, he, hprop⟩ := htail o ho
          exact ⟨e, by simp [he], hprop⟩
        | urlAndSlice =>
          simp [SyncSession.codegen, hres, hrest, hkind] at h
          subst h
          intro o ho
          obtain ⟨e, he, hprop⟩ := htail o ho
          exact ⟨e, by simp [he], hprop⟩
        | assetUrl =>
          cases hid : entry.2.id with
          | none =>
            simp [SyncSession.codegen, hres, hrest, hkind, hid] at h
            subst h
            intro o ho
            obtain ⟨e, he, hprop⟩ := htail o ho
            exact ⟨e, by simp [he], hprop⟩
          | some id =>
            simp [SyncSession.codegen, hres, hrest, hkind, hid] at h
            subst h
            intro o ho
            rcases List.mem_cons.mp ho with he | hr
            · exact ⟨entry, by simp, by simp [he], id, hid, by simp [he]⟩
            · obtain ⟨e, he, hprop⟩ := htail o hr
              exact ⟨e, by simp [he], hprop⟩

/-- The single output of grouped codegen is written at the configured output
path. -/
theorem codegen_grouped_path (p : PathBuf)
    (inputs : List Codegen.SyncInput) (pr : PathBuf)
    (st : Codegen.Statement)
    (h : Codegen.codegen_grouped p inputs = some (pr, st)) : pr = p := by
  cases hb : Codegen.buildTree inputs with
  | none => simp [Codegen.codegen_grouped, hb] at h
  | some root =>
    cases hi : Codegen.build_item (.folder root) with
    | none => simp [Codegen.codegen_grouped, hb, hi] at h
    | some item =>
      simp [Codegen.codegen_grouped, hb, hi] at h
      exact h.1.symm

/-- Claim C9: The codegen stage produces one consolidated output per group
(grouped mode) exactly when a codegen output path was configured, and one
output per eligible input (individual mode) when none was; sync.rs's own
codegen stage, which has no configured output path, generates per-input
outputs only. -/
theorem codegen_mode_selection :
    (∀ (p : PathBuf) (inputs : List Codegen.SyncInput)
       (outs : List (PathBuf × Codegen.Statement)),
      Codegen.perform_codegen (some p) inputs = some outs →
      outs.length = 1 ∧ ∀ o ∈ outs, o.1 = p) ∧
    (∀ inputs : List Codegen.SyncInput,
      Codegen.perform_codegen none inputs =
        some (inputs.filterMap Codegen.individual_output)) ∧
    (∀ (configs : List Config) (inputs : List (AssetName × SyncInput))
       (outs : List (PathBuf × String)),
      SyncSession.codegen configs inputs = some outs →
      ∀ o ∈ outs, ∃ entry ∈ inputs,
        o.1 = with_extension entry.2.path "lua") := by
  refine ⟨?_, fun _ => rfl, ?_⟩
  · intro p inputs outs h
    cases hg : Codegen.codegen_grouped p inputs with
    | none => simp [Codegen.perform_codegen, hg] at h
    | some out =>
      simp [Codegen.perform_codegen, hg] at h
      subst h
      refine ⟨rfl, ?_⟩
      intro o ho
      rcases List.mem_singleton.mp ho with rfl
      exact codegen_grouped_path p inputs o.1 o.2 (by simpa using hg)
  · intro configs inputs outs h o ho
    obtain ⟨entry, hmem, hpath, _⟩ :=
      SyncSession_codegen_per_input configs inputs outs h o ho
    exact ⟨entry, hmem, hpath⟩

/-- Witness for `codegen_mode_selection`: with a configured output path the
fixture run produces exactly one output, at that path. -/
theorem codegen_mode_selection_witness :
    ∀ o ∈ [(["out.lua"],
        Codegen.Statement.ret (Codegen.Expression.table
          [("a", Codegen.Expression.table
            [("x", Codegen.Expression.str "rbxassetid://1")])]))],
      o.1 = ["out.lua"] :=
  (codegen_mode_selection.1 ["out.lua"] [cgInputFix] _ rfl).2

/-- Claim C8: When an input's path traverses a segment previously established
as a leaf as if it were a namespace, insertion stops at the conflicting
segment leaving the tree unchanged (an error is logged, not raised), the
grouping pass continues with the remaining inputs, and — concretely — with
inputs `a.png`, `a/b.png` (conflicting) and `c.png`, the pipeline still
produces the output containing `a` and the later sibling `c`. -/
theorem codegen_conflict_skips_branch :
    (∀ (dir : Codegen.Entries) (seg next : String) (rest : List String)
       (inp j : Codegen.SyncInput),
      Codegen.Entries.find seg dir = some (.input j) →
      Codegen.insertPath inp dir (seg :: next :: rest) = some dir) ∧
    (∀ (dir dir' : Codegen.Entries) (inp : Codegen.SyncInput)
       (rest : List Codegen.SyncInput),
      Codegen.insertInput dir inp = some dir' →
      (inp :: rest).foldlM Codegen.insertInput dir =
        rest.foldlM Codegen.insertInput dir') ∧
    Codegen.codegen_grouped ["out.lua"]
        [mkCgInput ["a.png"] (some 1), mkCgInput ["a", "b.png"] (some 2),
         mkCgInput ["c.png"] (some 3)] =
      some (["out.lua"], .ret (.table
        [("a", .str "rbxassetid://1"), ("c", .str "rbxassetid://3")])) := by
  refine ⟨?_, ?_, rfl⟩
  · intro dir seg next rest inp j hfind
    simp [Codegen.insertPath, hfind]
  · intro dir dir' inp rest h
    simp [h]

/-- Witness for `codegen_conflict_skips_branch`: with `a` already a leaf,
inserting a path that traverses `a` as a folder returns the tree unchanged. -/
theorem codegen_conflict_skips_branch_witness :
    Codegen.insertPath (mkCgInput ["a", "b.png"] (some 2))
        (Codegen.Entries.cons "a" (.input (mkCgInput ["a.png"] (some 1)))
          .nil)
        ["a", "b.png"] =
      some (Codegen.Entries.cons "a"
        (.input (mkCgInput ["a.png"] (some 1))) .nil) :=
  codegen_conflict_skips_branch.1
    (Codegen.Entries.cons "a" (.input (mkCgInput ["a.png"] (some 1))) .nil)
    "a" "b.png" [] (mkCgInput ["a", "b.png"] (some 2))
    (mkCgInput ["a.png"] (some 1)) rfl

/-- Looking up a key right after inserting it returns the inserted item,
whatever was bound before (`BTreeMap::insert` replaces). -/
theorem Entries_find_insert :
    ∀ (dir : Codegen.Entries) (k : String) (v : Codegen.Item),
      Codegen.Entries.find k (dir.insert k v) = some v
  | .nil, k, v => by simp [Codegen.Entries.insert, Codegen.Entries.find]
  | .cons k' v' rest, k, v => by
    cases hlt : Codegen.strLt k k' with
    | true => simp [Codegen.Entries.insert, Codegen.Entries.find, hlt]
    | false =>
      by_cases hk : k = k'
      · subst hk
        simp [Codegen.Entries.insert, Codegen.Entries.find, hlt]
      · simp [Codegen.Entries.insert, Codegen.Entries.find, hlt, hk,
          Entries_find_insert rest k v]

/-- Claim C10: When the file stem of an input's final path segment equals a key
already present in the current folder node, the later insertion silently
replaces the existing entry — a leaf or an entire subtree — taking the
non-conflict code path (the final segment is inserted without any check);
concretely, `a/x.png` then `a/x.jpg` leaves only the jpg's identifier in the
output, and `a/b/c.png` then `a/b.png` replaces the whole `b` subtree by a
leaf. -/
theorem codegen_silent_replacement :
    (∀ (dir : Codegen.Entries) (last stem : String)
       (inp : Codegen.SyncInput),
      file_stem last = some stem →
      Codegen.insertPath inp dir [last] =
        some (dir.insert stem (.input inp))) ∧
    (∀ (dir : Codegen.Entries) (k : String) (v : Codegen.Item),
      Codegen.Entries.find k (dir.insert k v) = some v) ∧
    Codegen.codegen_grouped ["out.lua"]
        [mkCgInput ["a", "x.png"] (some 1), mkCgInput ["a", "x.jpg"] (some 2)]
      = some (["out.lua"], .ret (.table
          [("a", .table [("x", .str "rbxassetid://2")])])) ∧
    Codegen.codegen_grouped ["out.lua"]
        [mkCgInput ["a", "b", "c.png"] (some 1),
         mkCgInput ["a", "b.png"] (some 2)]
      = some (["out.lua"], .ret (.table
          [("a", .table [("b", .str "rbxassetid://2")])])) := by
  refine ⟨?_, ?_, rfl, rfl⟩
  · intro dir last stem inp hstem
    simp [Codegen.insertPath, hstem]
  · intro dir k v
    exact Entries_find_insert dir k v

/-- Witness for `codegen_silent_replacement`: inserting `x.jpg` into a node
that already binds `x` replaces the binding with the new leaf. -/
theorem codegen_silent_replacement_witness :
    Codegen.insertPath (mkCgInput ["a", "x.jpg"] (some 2))
        (Codegen.Entries.cons "x"
          (.input (mkCgInput ["a", "x.png"] (some 1))) .nil)
        ["x.jpg"] =
      some (Codegen.Entries.cons "x"
        (.input (mkCgInput ["a", "x.jpg"] (some 2))) .nil) :=
  codegen_silent_replacement.1
    (Codegen.Entries.cons "x" (.input (mkCgInput ["a", "x.png"] (some 1)))
      .nil)
    "x.jpg" "x" (mkCgInput ["a", "x.jpg"] (some 2)) rfl

/-- Totality of the character-list order: two lists unrelated by `charsLt`
either way are equal. -/
theorem charsLt_total :
    ∀ a b : List Char, Codegen.charsLt a b = false →
      Codegen.charsLt b a = false → a = b
  | [], [] => fun _ _ => rfl
  | [], _ :: _ => fun h _ => by simp [Codegen.charsLt] at h
  | _ :: _, [] => fun _ h => by simp [Codegen.charsLt] at h
  | a :: as, b :: bs => fun h1 h2 => by
    simp only [Codegen.charsLt] at h1 h2
    by_cases hab : a < b
    · simp [hab] at h1
    · by_cases hba : b < a
      · simp [hab, hba] at h2
      · have hae : a = b := le_antisymm (not_lt.mp hba) (not_lt.mp hab)
        subst hae
        simp [hab] at h1 h2
        rw [charsLt_total as bs h1 h2]

/-- Totality of the string order used by the tree's key order. -/
theorem strLt_total (a b : String) (h1 : Codegen.strLt a b = false)
    (h2 : Codegen.strLt b a = false) : a = b := by
  cases a with
  | mk da =>
    cases b with
    | mk db =>
      simp only [Codegen.strLt] at h1 h2
      exact congrArg String.mk (charsLt_total da db h1 h2)

/-- Inserting a key above a strict lower bound keeps the bound on the head
key. -/
theorem headKeyOk_insert (b k : String) (v : Codegen.Item)
    (ch : Codegen.Entries) (hk : Codegen.strLt b k = true)
    (hch : Codegen.Entries.headKeyOk b ch = true) :
    Codegen.Entries.headKeyOk b (ch.insert k v) = true := by
  cases ch with
  | nil => simpa [Codegen.Entries.insert, Codegen.Entries.headKeyOk] using hk
  | cons k' v' rest =>
    cases hlt : Codegen.strLt k k' with
    | true =>
      simpa [Codegen.Entries.insert, Codegen.Entries.headKeyOk, hlt] using hk
    | false =>
      by_cases hkk : k = k'
      · subst hkk
        simpa [Codegen.Entries.insert, Codegen.Entries.headKeyOk, hlt]
          using hk
      · simpa [Codegen.Entries.insert, Codegen.Entries.headKeyOk, hlt, hkk]
          using hch

/-- `Entries.insert` preserves well-orderedness when the inserted item is
itself well-ordered. -/
theorem insert_wellOrdered :
    ∀ (ch : Codegen.Entries) (k : String) (v : Codegen.Item),
      Codegen.Item.wellOrdered v = true →
      Codegen.Entries.wellOrdered ch = true →
      Codegen.Entries.wellOrdered (ch.insert k v) = true
  | .nil, k, v => fun hv _ => by
    simp [Codegen.Entries.insert, Codegen.Entries.wellOrdered,
      Codegen.Entries.headKeyOk, hv]
  | .cons k' v' rest, k, v => fun hv hch => by
    rw [Codegen.Entries.wellOrdered] at hch
    simp only [Bool.and_eq_true] at hch
    obtain ⟨⟨hv', hhk⟩, hwo⟩ := hch
    cases hlt : Codegen.strLt k k' with
    | true =>
      rw [Codegen.Entries.insert]
      simp only [hlt, if_true]
      rw [Codegen.Entries.wellOrdered]
      simp only [Bool.and_eq_true]
      refine ⟨⟨hv, by simpa [Codegen.Entries.headKeyOk] using hlt⟩, ?_⟩
      rw [Codegen.Entries.wellOrdered]
      simp [Bool.and_eq_true, hv', hhk, hwo]
    | false =>
      by_cases hkk : k = k'
      · subst hkk
        rw [Codegen.Entries.insert]
        rw [if_neg (by simp [hlt]), if_pos rfl]
        rw [Codegen.Entries.wellOrdered]
        simp [Bool.and_eq_true, hv, hhk, hwo]
      · have hk'k : Codegen.strLt k' k = true := by
          cases hlt2 : Codegen.strLt k' k with
          | true => rfl
          | false => exact absurd (strLt_total k k' hlt hlt2) hkk
        rw [Codegen.Entries.insert]
        simp only [hlt, hkk, Bool.false_eq_true, if_false]
        rw [Codegen.Entries.wellOrdered]
        simp only [Bool.and_eq_true]
        exact ⟨⟨hv', headKeyOk_insert k' k v rest hk'k hhk⟩,
          insert_wellOrdered rest k v hv hwo⟩

/-- `Entries.set` never changes the keys, so head-key bounds survive it. -/
theorem headKeyOk_set (b k : String) (v : Codegen.Item) :
    ∀ ch : Codegen.Entries,
      Codegen.Entries.headKeyOk b (ch.set k v) =
        Codegen.Entries.headKeyOk b ch
  | .nil => rfl
  | .cons k' v' rest => by
    by_cases hk : k = k' <;>
      simp [Codegen.Entries.set, hk, Codegen.Entries.headKeyOk]

/-- `Entries.set` preserves well-orderedness when the new item is
well-ordered. -/
theorem set_wellOrdered :
    ∀ (ch : Codegen.Entries) (k : String) (v : Codegen.Item),
      Codegen.Item.wellOrdered v = true →
      Codegen.Entries.wellOrdered ch = true →
      Codegen.Entries.wellOrdered (ch.set k v) = true
  | .nil, _, _ => fun _ h => h
  | .cons k' v' rest, k, v => fun hv hch => by
    rw [Codegen.Entries.wellOrdered] at hch
    simp only [Bool.and_eq_true] at hch
    obtain ⟨⟨hv', hhk⟩, hwo⟩ := hch
    by_cases hk : k = k'
    · rw [Codegen.Entries.set]
      simp only [hk, if_true]
      rw [Codegen.Entries.wellOrdered]
      simp [Bool.and_eq_true, hv, hhk, hwo]
    · rw [Codegen.Entries.set]
      simp only [hk, if_false]
      rw [Codegen.Entries.wellOrdered]
      simp only [Bool.and_eq_true]
      exact ⟨⟨hv', by rw [headKeyOk_set]; exact hhk⟩,
        set_wellOrdered rest k v hv hwo⟩

/-- Items found in a well-ordered entry list are themselves well-ordered. -/
theorem find_wellOrdered :
    ∀ (ch : Codegen.Entries) (k : String) (it : Codegen.Item),
      Codegen.Entries.wellOrdered ch = true →
      Codegen.Entries.find k ch = some it →
      Codegen.Item.wellOrdered it = true
  | .nil, _, _ => fun _ h => by simp [Codegen.Entries.find] at h
  | .cons k' v' rest, k, it => fun hch hf => by
    rw [Codegen.Entries.wellOrdered] at hch
    simp only [Bool.and_eq_true] at hch
    by_cases hk : k = k'
    · simp only [Codegen.Entries.find, hk, if_true] at hf
      cases hf
      exact hch.1.1
    · simp only [Codegen.Entries.find, hk, if_false] at hf
      exact find_wellOrdered rest k it hch.2 hf

/-- The tree-navigation loop preserves well-orderedness. -/
theorem insertPath_wellOrdered (inp : Codegen.SyncInput) :
    ∀ (segs : List String) (dir dir' : Codegen.Entries),
      Codegen.Entries.wellOrdered dir = true →
      Codegen.insertPath inp dir segs = some dir' →
      Codegen.Entries.wellOrdered dir' = true
  | [], dir, dir' => fun h hi => by
    simp only [Codegen.insertPath, Option.some.injEq] at hi
    rw [← hi]; exact h
  | [last], dir, dir' => fun h hi => by
    cases hst : file_stem last with
    | none => simp [Codegen.insertPath, hst] at hi
    | some stem =>
      simp only [Codegen.insertPath, hst, Option.some.injEq] at hi
      rw [← hi]
      exact insert_wellOrdered dir stem (.input inp) rfl h
  | seg :: next :: rest, dir, dir' => fun h hi => by
    cases hf : Codegen.Entries.find seg dir with
    | none =>
      cases hsub : Codegen.insertPath inp .nil (next :: rest) with
      | none => simp [Codegen.insertPath, hf, hsub] at hi
      | some sub' =>
        simp only [Codegen.insertPath, hf, hsub, Option.some.injEq] at hi
        rw [← hi]
        have hsub' := insertPath_wellOrdered inp (next :: rest) .nil sub'
          rfl hsub
        exact insert_wellOrdered dir seg (.folder sub')
          (by simpa [Codegen.Item.wellOrdered] using hsub') h
    | some it =>
      cases it with
      | input j =>
        simp only [Codegen.insertPath, hf, Option.some.injEq] at hi
        rw [← hi]; exact h
      | folder sub =>
        cases hsub : Codegen.insertPath inp sub (next :: rest) with
        | none => simp [Codegen.insertPath, hf, hsub] at hi
        | some sub' =>
          simp only [Codegen.insertPath, hf, hsub, Option.some.injEq] at hi
          rw [← hi]
          have hsubwo : Codegen.Entries.wellOrdered sub = true := by
            have := find_wellOrdered dir seg (.folder sub) h hf
            simpa [Codegen.Item.wellOrdered] using this
          have hsub' := insertPath_wellOrdered inp (next :: rest) sub sub'
            hsubwo hsub
          exact set_wellOrdered dir seg (.folder sub')
            (by simpa [Codegen.Item.wellOrdered] using hsub') h

/-- One grouping-pass step preserves well-orderedness. -/
theorem insertInput_wellOrdered (dir dir' : Codegen.Entries)
    (inp : Codegen.SyncInput)
    (h : Codegen.Entries.wellOrdered dir = true)
    (hi : Codegen.insertInput dir inp = some dir') :
    Codegen.Entries.wellOrdered dir' = true := by
  unfold Codegen.insertInput at hi
  cases hsp : Codegen.strip_prefix inp.config.base_path inp.path with
  | none => simp [hsp] at hi
  | some rel =>
    cases hc : Codegen.collapseSegments rel with
    | none => simp [hsp, hc] at hi
    | some segs =>
      simp only [hsp, hc] at hi
      exact insertPath_wellOrdered inp segs dir dir' h hi

/-- The whole grouping pass, from any well-ordered accumulator. -/
theorem buildTree_wellOrdered_from :
    ∀ (inputs : List Codegen.SyncInput) (dir root : Codegen.Entries),
      Codegen.Entries.wellOrdered dir = true →
      inputs.foldlM Codegen.insertInput dir = some root →
      Codegen.Entries.wellOrdered root = true
  | [], dir, root => fun h hf => by
    simp only [List.foldlM_nil, Option.pure_def, Option.some.injEq] at hf
    rw [← hf]; exact h
  | inp :: rest, dir, root => fun h hf => by
    rw [List.foldlM_cons] at hf
    cases hstep : Codegen.insertInput dir inp with
    | none => rw [hstep] at hf; simp at hf
    | some dir' =>
      rw [hstep] at hf
      simp only [Option.bind_eq_bind, Option.some_bind] at hf
      exact buildTree_wellOrdered_from rest dir' root
        (insertInput_wellOrdered dir dir' inp h hstep) hf

/-- A leaf without an identifier renders to nothing. -/
theorem build_item_input_none (inp : Codegen.SyncInput)
    (h : inp.id = none) : Codegen.build_item (.input inp) = none := by
  cases hk : inp.config.codegen with
  | none => simp [Codegen.build_item, hk]
  | some k => cases k <;> simp [Codegen.build_item, hk, h]

/-- A node all of whose children render to nothing has an empty rendered
entry list. -/
theorem build_entries_all_none :
    ∀ ch : Codegen.Entries,
      (∀ p ∈ ch.toList, Codegen.build_item p.2 = none) →
      Codegen.build_entries ch = []
  | .nil => fun _ => rfl
  | .cons name item rest => fun h => by
    have hhead : Codegen.build_item item = none :=
      h (name, item) (by simp [Codegen.Entries.toList])
    have htail := build_entries_all_none rest
      (fun p hp => h p (by simp [Codegen.Entries.toList, hp]))
    simp [Codegen.build_entries, hhead, htail]

/-- Claim C7: Grouped codegen keys intermediate path segments as namespace
nodes in strictly ascending (alphabetical) key order at every level, and the
final segment, extension stripped, as a leaf; a leaf whose input has no
resolved id is omitted from its parent's rendered table, while a namespace
node all of whose children are omitted still renders as an empty table; the
spec's `a/b/x.png`, `a/b/y.png` (no id), `a/c/z.png` example produces exactly
the predicted tree. -/
theorem codegen_grouped_tree_shape :
    (∀ (inputs : List Codegen.SyncInput) (root : Codegen.Entries),
      Codegen.buildTree inputs = some root →
      Codegen.Entries.wellOrdered root = true) ∧
    (∀ (dir : Codegen.Entries) (last stem : String)
       (inp : Codegen.SyncInput),
      file_stem last = some stem →
      Codegen.insertPath inp dir [last] =
        some (dir.insert stem (.input inp))) ∧
    (∀ inp : Codegen.SyncInput, inp.id = none →
      Codegen.build_item (.input inp) = none) ∧
    (∀ (name : String) (inp : Codegen.SyncInput) (rest : Codegen.Entries),
      inp.id = none →
      Codegen.build_entries (.cons name (.input inp) rest) =
        Codegen.build_entries rest) ∧
    (∀ ch : Codegen.Entries,
      (∀ p ∈ ch.toList, Codegen.build_item p.2 = none) →
      Codegen.build_item (.folder ch) = some (.table [])) ∧
    Codegen.codegen_grouped ["out.lua"]
        [mkCgInput ["a", "b", "x.png"] (some 1),
         mkCgInput ["a", "b", "y.png"] none,
         mkCgInput ["a", "c", "z.png"] (some 3)] =
      some (["out.lua"], .ret (.table
        [("a", .table
          [("b", .table [("x", .str "rbxassetid://1")]),
           ("c", .table [("z", .str "rbxassetid://3")])])])) := by
  refine ⟨?_, ?_, ?_, ?_, ?_, rfl⟩
  · intro inputs root h
    exact buildTree_wellOrdered_from inputs .nil root rfl h
  · intro dir last stem inp hstem
    simp [Codegen.insertPath, hstem]
  · intro inp h
    exact build_item_input_none inp h
  · intro name inp rest h
    simp [Codegen.build_entries, build_item_input_none inp h]
  · intro ch h
    simp [Codegen.build_item, build_entries_all_none ch h]

/-- Witness for `codegen_grouped_tree_shape`: the id-less `y.png` leaf
renders to nothing. -/
theorem codegen_grouped_tree_shape_witness :
    Codegen.build_item (.input (mkCgInput ["a", "b", "y.png"] none)) =
      none :=
  codegen_grouped_tree_shape.2.2.1 (mkCgInput ["a", "b", "y.png"] none) rfl

/-- On key-distinct association lists, a successful lookup is exactly
membership of the pair. -/
theorem lookupName_eq_some_iff {α : Type} :
    ∀ (l : List (AssetName × α)), (l.map Prod.fst).Nodup →
      ∀ (n : AssetName) (v : α),
      (lookupName n l = some v ↔ (n, v) ∈ l)
  | [], _, n, v => by simp [lookupName]
  | (k, w) :: rest, hnd, n, v => by
    rw [List.map_cons] at hnd
    have hnotin := (List.nodup_cons.mp hnd).1
    have hnd' := (List.nodup_cons.mp hnd).2
    by_cases hk : k = n
    · subst hk
      constructor
      · intro h
        rw [lookupName, if_pos rfl] at h
        exact List.mem_cons.mpr (Or.inl (by rw [← Option.some.inj h]))
      · intro h
        rcases List.mem_cons.mp h with he | hm
        · have hvw : v = w := congrArg Prod.snd he
          rw [lookupName, if_pos rfl, hvw]
        · exact absurd (List.mem_map.mpr ⟨(k, v), hm, rfl⟩) hnotin
    · rw [lookupName, if_neg hk,
        lookupName_eq_some_iff rest hnd' n v, List.mem_cons]
      constructor
      · exact Or.inr
      · intro h
        rcases h with h | h
        · exact absurd (congrArg Prod.fst h).symm hk
        · exact h

/-- A failed lookup is exactly absence of the key. -/
theorem lookupName_eq_none_iff {α : Type} :
    ∀ (l : List (AssetName × α)) (n : AssetName),
      (lookupName n l = none ↔ n ∉ l.map Prod.fst)
  | [], n => by simp [lookupName]
  | (k, w) :: rest, n => by
    by_cases hk : k = n
    · subst hk
      simp [lookupName]
    · rw [lookupName, if_neg hk, lookupName_eq_none_iff rest n,
        List.map_cons]
      constructor
      · intro h hmem
        rcases List.mem_cons.mp hmem with hmem | hmem
        · exact hk hmem.symm
        · exact h hmem
      · intro h hmem
        exact h (List.mem_cons.mpr (Or.inr hmem))

/-- Lookups agree across a permutation of a key-distinct association list. -/
theorem lookupName_perm {α : Type} (l l' : List (AssetName × α))
    (hperm : l.Perm l') (hnd : (l.map Prod.fst).Nodup) (n : AssetName) :
    lookupName n l = lookupName n l' := by
  have hnd' : (l'.map Prod.fst).Nodup :=
    ((hperm.map Prod.fst).nodup_iff).mp hnd
  cases hl : lookupName n l with
  | none =>
    rw [lookupName_eq_none_iff] at hl
    have : n ∉ l'.map Prod.fst := fun hmem =>
      hl (((hperm.map Prod.fst).mem_iff).mpr hmem)
    exact ((lookupName_eq_none_iff l' n).mpr this).symm
  | some v =>
    rw [lookupName_eq_some_iff l hnd n v] at hl
    exact ((lookupName_eq_some_iff l' hnd' n v).mpr
      (hperm.mem_iff.mp hl)).symm

/-- Lookup transfer along an element-wise, name-preserving relation between
two association lists. -/
theorem lookup_forall₂ {α β : Type}
    (rel : (AssetName × α) → (AssetName × β) → Prop)
    (hname : ∀ e e', rel e e' → e'.1 = e.1) :
    ∀ (L : List (AssetName × α)) (R : List (AssetName × β)),
      List.Forall₂ rel L R → ∀ n : AssetName,
      (lookupName n L = none → lookupName n R = none) ∧
      (∀ v, lookupName n L = some v →
        ∃ v', lookupName n R = some v' ∧ rel (n, v) (n, v')) := by
  intro L R h
  induction h with
  | nil => intro n; simp [lookupName]
  | @cons e e' L' R' hrel hrest ih =>
    intro n
    rcases e with ⟨k, v₀⟩
    rcases e' with ⟨k', v₀'⟩
    have hk' : k' = k := hname (k, v₀) (k', v₀') hrel
    subst hk'
    by_cases hk : k' = n
    · constructor
      · intro hcontra
        rw [lookupName, if_pos hk] at hcontra
        exact Option.noConfusion hcontra
      · intro v hv
        rw [lookupName, if_pos hk] at hv
        refine ⟨v₀', by rw [lookupName, if_pos hk], ?_⟩
        have hveq : v₀ = v := Option.some.inj hv
        subst hveq
        rw [← hk]
        exact hrel
    · constructor
      · intro hnone
        rw [lookupName, if_neg hk] at hnone
        rw [lookupName, if_neg hk]
        exact (ih n).1 hnone
      · intro v hv
        rw [lookupName, if_neg hk] at hv
        obtain ⟨v', hv', hr⟩ := (ih n).2 v hv
        refine ⟨v', ?_, hr⟩
        rw [lookupName, if_neg hk]
        exact hv'

/-- A successful run relates its input and output lists element-wise by one
`sync_one` step. -/
theorem sync_go_forall₂
    (hashFn : List Nat → String) (strategy : UploadData → Nat)
    (read : PathBuf → Option (List Nat)) (configs : List Config)
    (omani : List (AssetName × InputManifest)) :
    ∀ (L R : List (AssetName × SyncInput)) (log : List UploadData),
      sync_go hashFn strategy read configs omani L = (.ok R, log) →
      List.Forall₂ (fun e e' => ∃ lg,
        sync_one hashFn strategy read configs omani e = .ok (e', lg)) L R
  | [], R, log => fun h => by
    simp [sync_go] at h
    rcases h with ⟨h1, h2⟩
    subst h1
    exact List.Forall₂.nil
  | e :: rest, R, log => fun h => by
    obtain ⟨e', lg, rest', lgr, hone, hrest, hR, _⟩ :=
      sync_go_cons_ok hashFn strategy read configs omani e rest R log h
    subst hR
    exact List.Forall₂.cons ⟨lg, hone⟩
      (sync_go_forall₂ hashFn strategy read configs omani rest rest' lgr
        hrest)

/-- A successful manifest rebuild relates final inputs and manifest entries
element-wise. -/
theorem write_manifest_forall₂ (configs : List Config) :
    ∀ (R : List (AssetName × SyncInput))
      (m : List (AssetName × InputManifest)),
      write_manifest configs R = some m →
      List.Forall₂ (fun e me => me.1 = e.1 ∧
        ∃ cfg, resolveInputConfig configs e.2.config_index = some cfg ∧
          me.2 = { hash := e.2.hash, id := e.2.id, slice := none,
                   config := cfg }) R m
  | [], m => fun h => by
    simp [write_manifest] at h
    subst h
    exact List.Forall₂.nil
  | e :: rest, m => fun h => by
    obtain ⟨cfg, mr, hres, hmr, hm⟩ :=
      write_manifest_cons configs e rest m h
    subst hm
    exact List.Forall₂.cons ⟨rfl, cfg, hres, rfl⟩
      (write_manifest_forall₂ configs rest mr hmr)

/-- Claim C4, amended: for a fixed filesystem state (read oracle) and fixed
original manifest, the manifests rebuilt by two runs over permuted
enumerations of the same discovered input set are identical as maps — every
name looks up to the same entry. (The generated grouped output is not
enumeration-order independent in general: see the counterexample
`codegen_order_dependent`, where two inputs collide on one tree key.) -/
theorem sync_manifest_perm_invariant
    (hashFn : List Nat → String) (strategy : UploadData → Nat)
    (read : PathBuf → Option (List Nat)) (configs : List Config)
    (omani : List (AssetName × InputManifest))
    (L L' R R' : List (AssetName × SyncInput))
    (log log' : List UploadData)
    (m m' : List (AssetName × InputManifest))
    (hperm : L.Perm L') (hnd : (L.map Prod.fst).Nodup)
    (h1 : sync_go hashFn strategy read configs omani L = (.ok R, log))
    (h2 : sync_go hashFn strategy read configs omani L' = (.ok R', log'))
    (hm : write_manifest configs R = some m)
    (hm' : write_manifest configs R' = some m')
    (n : AssetName) :
    lookupName n m = lookupName n m' := by
  have hF1 := sync_go_forall₂ hashFn strategy read configs omani L R log h1
  have hF2 := sync_go_forall₂ hashFn strategy read configs omani L' R' log'
    h2
  have hG1 := write_manifest_forall₂ configs R m hm
  have hG2 := write_manifest_forall₂ configs R' m' hm'
  have hn1 : ∀ e e' : AssetName × SyncInput,
      (∃ lg, sync_one hashFn strategy read configs omani e = .ok (e', lg)) →
      e'.1 = e.1 := by
    rintro e e' ⟨lg, he⟩
    exact (sync_one_preserves hashFn strategy read configs omani e e' lg
      he).1
  have hn2 : ∀ (e : AssetName × SyncInput)
      (me : AssetName × InputManifest),
      (me.1 = e.1 ∧
        ∃ cfg, resolveInputConfig configs e.2.config_index = some cfg ∧
          me.2 = { hash := e.2.hash, id := e.2.id, slice := none,
                   config := cfg }) → me.1 = e.1 :=
    fun _ _ h => h.1
  have hL1 := lookup_forall₂ _ hn1 L R hF1 n
  have hL2 := lookup_forall₂ _ hn1 L' R' hF2 n
  have hM1 := lookup_forall₂ _ hn2 R m hG1 n
  have hM2 := lookup_forall₂ _ hn2 R' m' hG2 n
  have hLL' : lookupName n L = lookupName n L' :=
    lookupName_perm L L' hperm hnd n
  cases hl : lookupName n L with
  | none =>
    have hr : lookupName n R = none := hL1.1 hl
    have hr' : lookupName n R' = none := hL2.1 (hLL' ▸ hl)
    rw [hM1.1 hr, hM2.1 hr']
  | some i =>
    obtain ⟨i₁, hi₁, lg₁, hs₁⟩ := hL1.2 i hl
    obtain ⟨i₂, hi₂, lg₂, hs₂⟩ := hL2.2 i (hLL' ▸ hl)
    have hi12 : i₁ = i₂ := by
      rw [hs₁] at hs₂
      have h' := Except.ok.inj hs₂
      exact congrArg Prod.snd (congrArg Prod.fst h')
    subst hi12
    obtain ⟨mv, hmv, -, cfg, hcfg, hproj⟩ := hM1.2 i₁ hi₁
    obtain ⟨mv', hmv', -, cfg', hcfg', hproj'⟩ := hM2.2 i₁ hi₂
    have hccfg : cfg' = cfg := by
      rw [hcfg] at hcfg'
      exact (Option.some.inj hcfg').symm
    have hp : mv = { hash := i₁.hash, id := i₁.id, slice := none,
                     config := cfg } := hproj
    have hp' : mv' = { hash := i₁.hash, id := i₁.id, slice := none,
                       config := cfg' } := hproj'
    rw [hmv, hmv', hp, hp', hccfg]

/-- Counterexample to C4 as stated: for a fixed filesystem state, two
enumeration orders of the same two inputs — whose relative paths differ only
in extension and hence collide on the tree key `x` — produce different
grouped codegen output: the later-enumerated input silently wins. -/
theorem codegen_order_dependent :
    Codegen.codegen_grouped ["out.lua"]
        [mkCgInput ["a", "x.png"] (some 1),
         mkCgInput ["a", "x.jpg"] (some 2)] ≠
      Codegen.codegen_grouped ["out.lua"]
        [mkCgInput ["a", "x.jpg"] (some 2),
         mkCgInput ["a", "x.png"] (some 1)] := by
  intro h
  rw [show Codegen.codegen_grouped ["out.lua"]
        [mkCgInput ["a", "x.png"] (some 1),
         mkCgInput ["a", "x.jpg"] (some 2)] =
      some (["out.lua"], .ret (.table
        [("a", .table [("x", .str "rbxassetid://2")])])) from rfl] at h
  rw [show Codegen.codegen_grouped ["out.lua"]
        [mkCgInput ["a", "x.jpg"] (some 2),
         mkCgInput ["a", "x.png"] (some 1)] =
      some (["out.lua"], .ret (.table
        [("a", .table [("x", .str "rbxassetid://1")])])) from rfl] at h
  simp at h

/-- Witness for `sync_manifest_perm_invariant`: a concrete two-input run and
its reversed enumeration rebuild manifests that agree on the looked-up
name. -/
theorem sync_manifest_perm_invariant_witness :
    lookupName "x1"
      [("x1", { hash := some "1", id := some 7, slice := none,
                config := inputCfgFix : InputManifest }),
       ("x2", { hash := some "1", id := some 7, slice := none,
                config := inputCfgFix : InputManifest })] =
    lookupName "x1"
      [("x2", { hash := some "1", id := some 7, slice := none,
                config := inputCfgFix : InputManifest }),
       ("x1", { hash := some "1", id := some 7, slice := none,
                config := inputCfgFix : InputManifest })] :=
  sync_manifest_perm_invariant hashFix strategyFix readFix [cfgFix] []
    [("x1", inputFixA), ("x2", inputFixB)]
    [("x2", inputFixB), ("x1", inputFixA)]
    [("x1", { inputFixA with hash := some "1", id := some 7 }),
     ("x2", { inputFixB with hash := some "1", id := some 7 })]
    [("x2", { inputFixB with hash := some "1", id := some 7 }),
     ("x1", { inputFixA with hash := some "1", id := some 7 })]
    [⟨"x1", [1], "1"⟩, ⟨"x2", [1], "1"⟩]
    [⟨"x2", [1], "1"⟩, ⟨"x1", [1], "1"⟩]
    [("x1", { hash := some "1", id := some 7, slice := none,
              config := inputCfgFix }),
     ("x2", { hash := some "1", id := some 7, slice := none,
              config := inputCfgFix })]
    [("x2", { hash := some "1", id := some 7, slice := none,
              config := inputCfgFix }),
     ("x1", { hash := some "1", id := some 7, slice := none,
              config := inputCfgFix })]
    (List.Perm.swap ("x2", inputFixB) ("x1", inputFixA) [])
    (by simp) rfl rfl rfl rfl "x1"

end Tarmac
